import Mathlib

/-!
Verification of the mengram memory engine against its specification.

The Python sources are shallowly embedded: strings are `List Char`
(Python indexes strings by code point, so a character list is the
faithful model), fallible operations return `Option`, and the on-disk
vault is an association list from sanitized file stems to note records.
External services (the LLM, the embedding endpoint, the JSON decoder,
the graph and vector stores built by modules outside the verified
sources) are parameters of the embedded functions.
-/

namespace Mengram

/-- Python strings, indexed by code point. -/
abbrev Str := List Char

/-- Characters Python's `str.strip()` / `str.split()` treat as whitespace
(ASCII subset; the notes handled by the vault manager are ASCII-spaced). -/
def isPyWs (c : Char) : Bool :=
  c = ' ' || c = '\t' || c = '\n' || c = '\x0d' || c = '\x0b' || c = '\x0c'

/-- Python `str.lower` on one character (ASCII range, as used by the code). -/
def pyLowerChar (c : Char) : Char :=
  if 65 ≤ c.toNat ∧ c.toNat ≤ 90 then Char.ofNat (c.toNat + 32) else c

/-- Python `str.lower`. -/
def pyLower (s : Str) : Str := s.map pyLowerChar

/-- Python `str.lstrip()`. -/
def pyLstrip (s : Str) : Str := s.dropWhile isPyWs

/-- Python `str.rstrip()`. -/
def pyRstrip (s : Str) : Str := (s.reverse.dropWhile isPyWs).reverse

/-- Python `str.strip()`. -/
def pyStrip (s : Str) : Str := pyRstrip (pyLstrip s)

/-- One step of Python `str.split()`: push a character onto the token
accumulator. -/
def wsplitStep (c : Char) (acc : List Str) : List Str :=
  if isPyWs c then [] :: acc
  else
    match acc with
    | [] => [[c]]
    | t :: ts => (c :: t) :: ts

/-- Python `str.split()` with no argument: maximal non-whitespace runs. -/
def wsplit (s : Str) : List Str :=
  (s.foldr wsplitStep []).filter (fun t => !t.isEmpty)

/-- Model of `set(s.split())` — token set, modelled as a deduplicated list. -/
def tokenSet (s : Str) : List Str := (wsplit s).dedup

/-- Model of `VaultManager._fact_exists` (vault_manager.py:332-342): the new fact is
lowercased and stripped, the loop scans the stored existing facts, skips
the comparison when the new fact has no tokens, and reports a duplicate
when `len(new ∩ existing) / len(new) > 0.7`.  The float comparison is
exact at these magnitudes, so it is rendered as `10*|∩| > 7*|new|`. -/
def fact_exists (newFact : Str) (existingFacts : List Str) : Bool :=
  let newClean := pyStrip (pyLower newFact)
  existingFacts.any fun existing =>
    let newWords := tokenSet newClean
    let existingWords := tokenSet existing
    if newWords.isEmpty then false
    else decide (10 * (newWords.filter (· ∈ existingWords)).length > 7 * newWords.length)

/-- Modelled from the spec: the reference near-duplicate definition —
"normalized whitespace + lowercased token set; Jaccard overlap threshold
0.7 on the new fact's token set", i.e. both fact strings are lowercased,
whitespace-normalized and tokenized, and the facts are considered equal
exactly when `|new ∩ existing| / |new|` exceeds 0.7. -/
def refFactDup (newFact existing : Str) : Bool :=
  let nw := tokenSet (pyStrip (pyLower newFact))
  let ew := tokenSet (pyStrip (pyLower existing))
  decide (10 * (nw.filter (· ∈ ew)).length > 7 * nw.length)

/-- Model of `re.sub(r"\[\[([^\]]+)\]\]", r"\1", s)`: replace each non-overlapping
wiki-link `[[X]]` (with `X` nonempty and free of `]`) by `X`.  The fuel is
the string length, which bounds the number of matches. -/
def unlinkAux : Nat → Str → Str
  | 0, s => s
  | _, [] => []
  | fuel + 1, c :: rest =>
    if c = '[' ∧ rest.head? = some '[' then
      let afterOpen := rest.tail
      let inner := afterOpen.takeWhile (fun d => d ≠ ']')
      let afterInner := afterOpen.dropWhile (fun d => d ≠ ']')
      if inner.length > 0 ∧ afterInner.head? = some ']' ∧ afterInner.tail.head? = some ']' then
        inner ++ unlinkAux fuel afterInner.tail.tail
      else
        c :: unlinkAux fuel rest
    else
      c :: unlinkAux fuel rest

/-- Model of `re.sub(r"\[\[([^\]]+)\]\]", r"\1", s)` from `_extract_existing_facts`. -/
def unlink (s : Str) : Str := unlinkAux (s.length + 1) s

/-- Python `sub in s` (substring containment). -/
def pyContains (s sub : Str) : Bool := decide ( List.IsInfix sub s)

/-- Python `s.startswith(p)`. -/
def pyStartsWith (s p : Str) : Bool := p.isPrefixOf s

/-- Python `s.split(sep)` for a one-character separator (only `split("\n")`
is used by the embedded code). -/
def splitOnChar (sep : Char) (s : Str) : List Str :=
  s.foldr (fun c acc =>
    if c = sep then [] :: acc
    else
      match acc with
      | [] => [[c]]
      | t :: ts => (c :: t) :: ts) [[]]

/-- Model of `VaultManager._extract_existing_facts` (vault_manager.py:323-330):
collect the stripped `- ` bullet lines that contain no `**` and no `[`
among their first three characters, un-wikilink them, and store them
lowercased and stripped. -/
def extract_existing_facts (body : Str) : List Str :=
  (splitOnChar '\n' body).filterMap fun line =>
    let line := pyStrip line
    if pyStartsWith line ['-', ' '] && !(pyContains line ['*', '*'])
        && !(line.take 3).contains '[' then
      some (pyStrip (pyLower (unlink (line.drop 2))))
    else
      none

/-! ## Extraction data model (conversation_extractor.py dataclasses)

`VaultManager` consumes entity facts as plain strings (`re.sub`, `str.lower`
are applied to them directly), so the vault-facing record carries `Str`
facts; the extractor-side `ExtractedFact` record with its optional event
date appears further below with the response parser. -/

/-- Model of `ExtractedEntity` as consumed by the vault manager. -/
structure ExtractedEntity where
  name : Str
  entity_type : Str
  facts : List Str
deriving DecidableEq, Repr

/-- Model of `ExtractedRelation`. -/
structure ExtractedRelation where
  from_entity : Str
  to_entity : Str
  relation_type : Str
  description : Str := []
deriving DecidableEq, Repr

/-- Model of `ExtractedKnowledge`. -/
structure ExtractedKnowledge where
  entity : Str
  knowledge_type : Str
  title : Str
  content : Str
  artifact : Option Str := none
deriving DecidableEq, Repr

/-- Model of `ExtractedEpisode`.  Importance is a float in the source; the values the
parser produces are finite decimals, modelled exactly as rationals. -/
structure ExtractedEpisode where
  summary : Str
  context : Str := []
  outcome : Str := []
  participants : List Str := []
  emotional_valence : Str := "neutral".data
  importance : Rat := (1 : Rat) / 2
  happened_at : Option Str := none
deriving DecidableEq, Repr

/-- Model of `ExtractionResult` as consumed by the vault manager (episodes and
procedures are carried but never read by `process_extraction`; procedure
steps are schemaless dicts and are irrelevant here, so the vault-facing
record keeps the fields `process_extraction` can reach). -/
structure ExtractionResult where
  entities : List ExtractedEntity := []
  relations : List ExtractedRelation := []
  knowledge : List ExtractedKnowledge := []
  episodes : List ExtractedEpisode := []
deriving DecidableEq, Repr

/-! ## Vault model

A note file's YAML front matter holds `type`, `created`, `updated`, `tags`;
only `type` is ever read back (`created`/`updated`/`tags` never influence a
later operation), so a note is modelled as its `type` plus the body that
`_parse_frontmatter` returns.  `_format_with_frontmatter` writes
`body.strip()` followed by one newline after the front-matter block, and
re-parsing yields exactly that string, modelled by `normBody`. -/

/-- The body as stored by `_format_with_frontmatter` and recovered by
`_parse_frontmatter`: stripped, with a single trailing newline. -/
def normBody (b : Str) : Str :=
  if (pyStrip b).isEmpty then [] else pyStrip b ++ ['\n']

/-- An on-disk note: front-matter `type` plus parsed body. -/
structure Note where
  fmType : Str
  body : Str
deriving DecidableEq, Repr

/-- The per-tenant vault directory: sanitized file stem ↦ note, in creation
order.  (CPython iterates `glob` results and stem sets in an unspecified
order; the embedded order is creation order, and no settled claim depends
on the iteration order.) -/
abbrev Vault := List (Str × Note)

/-- Look up a note by file stem. -/
def vaultGet (v : Vault) (stem : Str) : Option Note :=
  (v.find? fun p => p.1 = stem).map Prod.snd

/-- Write a note (overwrite in place, append when new). -/
def vaultSet (v : Vault) (stem : Str) (n : Note) : Vault :=
  if (v.find? fun p => p.1 = stem).isSome then
    v.map fun p => if p.1 = stem then (stem, n) else p
  else v ++ [(stem, n)]

/-- Model of `VaultManager._entity_file_path` (vault_manager.py:304-306): replace the
characters `<>:"/\|?*` by `_`; the note's stem. -/
def sanitize (name : Str) : Str :=
  name.map fun c =>
    if c = '<' ∨ c = '>' ∨ c = ':' ∨ c = '"' ∨ c = '/' ∨ c = '\\' ∨ c = '|' ∨ c = '?' ∨ c = '*'
    then '_' else c

/-- First index at which `pat` occurs in `hay` case-insensitively
(`re.compile(re.escape(pat), re.IGNORECASE).search`). -/
def findCI (hay pat : Str) : Option Nat :=
  (List.range (hay.length - pat.length + 1)).find? fun i =>
    pyLower ((hay.drop i).take pat.length) = pyLower pat

/-- Replace the first case-insensitive occurrence of `pat` in `hay` by
`repl` (`pattern.sub(repl, hay, count=1)` with an escaped pattern). -/
def replaceFirstCI (hay pat repl : Str) : Str :=
  match findCI hay pat with
  | none => hay
  | some i => hay.take i ++ repl ++ hay.drop (i + pat.length)

/-- Model of `VaultManager._add_wikilinks` (vault_manager.py:294-302): for each
existing note stem other than the current entity, if `[[stem]]` is not yet
in the text, link the first case-insensitive occurrence of the stem. -/
def add_wikilinks (stems : List Str) (text : Str) (currentEntity : Str) : Str :=
  stems.foldl (fun text noteName =>
    if noteName = currentEntity then text
    else if pyContains text ('[' :: '[' :: noteName ++ [']', ']']) then text
    else replaceFirstCI text noteName ('[' :: '[' :: noteName ++ [']', ']'])) text

/-- Python `haystack.find(needle)` (first index, `none` for `-1`). -/
def pyFind (hay sub : Str) : Option Nat :=
  (List.range (hay.length - sub.length + 1)).find? fun i =>
    (hay.drop i).take sub.length = sub

/-- Model of `VaultManager._find_next_section` (vault_manager.py:285-290): position
of the next `"\n## "` at or after `start`. -/
def find_next_section (body : Str) (start : Nat) : Option Nat :=
  (pyFind (body.drop start) ('\n' :: '#' :: '#' :: [' '])).map (start + ·)

/-- Model of `re.findall(r"\[\[([^\]]+)\]\]", body)` — the link targets, in order
(`_update_note` puts them in a set; membership is what matters). -/
def findWikilinksAux : Nat → Str → List Str
  | 0, _ => []
  | _, [] => []
  | fuel + 1, c :: rest =>
    if c = '[' ∧ rest.head? = some '[' then
      let afterOpen := rest.tail
      let inner := afterOpen.takeWhile (fun d => d ≠ ']')
      let afterInner := afterOpen.dropWhile (fun d => d ≠ ']')
      if inner.length > 0 ∧ afterInner.head? = some ']' ∧ afterInner.tail.head? = some ']' then
        inner :: findWikilinksAux fuel afterInner.tail.tail
      else
        findWikilinksAux fuel rest
    else
      findWikilinksAux fuel rest

/-- All `[[…]]` targets of a body. -/
def findWikilinks (body : Str) : List Str := findWikilinksAux (body.length + 1) body

/-- Model of `VaultManager._detect_artifact_lang` (vault_manager.py:258-283). -/
def detect_artifact_lang (artifact : Str) (knowledgeType : Str) : Str :=
  let a := pyStrip artifact
  if pyStartsWith a "SELECT".data ∨ pyStartsWith a "select".data then "sql".data
  else if pyStartsWith a ['{'] ∨ pyStartsWith a ['['] then "json".data
  else if pyStartsWith a ['<'] then "xml".data
  else if pyStartsWith a "def ".data ∨ pyStartsWith a "import ".data then "python".data
  else if pyStartsWith a "public ".data ∨ pyStartsWith a "private ".data then "java".data
  else if pyContains artifact [':'] ∧ ¬ pyStartsWith a "http".data then "yaml".data
  else if pyStartsWith a ['$'] ∨ pyStartsWith a ['#', '!'] then "bash".data
  else if knowledgeType = "command".data then "bash".data
  else if knowledgeType = "config".data then "yaml".data
  else if knowledgeType = "formula".data then "math".data
  else if knowledgeType = "sql".data then "sql".data
  else []

/-- Model of `VaultManager._format_knowledge_entry` (vault_manager.py:234-256);
`today` stands for `datetime.now().strftime("%Y-%m-%d")`. -/
def format_knowledge_entry (stems : List Str) (today : Str) (k : ExtractedKnowledge) : Str :=
  let header := ('*' :: '*' :: '[' :: k.knowledge_type ++ ']' :: ' ' :: k.title
      ++ '*' :: '*' :: ' ' :: '(' :: today ++ [')'])
  let linkedContent := add_wikilinks stems k.content k.entity
  let lines :=
    match k.artifact with
    | none => [header, linkedContent, []]
    | some art =>
      let a := pyStrip art
      let lang := detect_artifact_lang a k.knowledge_type
      [header, linkedContent, '\n' :: "```".data ++ lang, a, "```".data, []]
  (lines.intersperse ['\n']).flatten

/-- Python `\w` (ASCII range, as produced by the extractor's types). -/
def isWordChar (c : Char) : Bool := c.isAlphanum || c = '_'

/-- The lazy `(.+?)\*\*` tail of the knowledge-title regex: the shortest
nonempty newline-free prefix followed by `**`; returns the captured title
and the residue after the closing `**`. -/
def lazyTitle (t : Str) : Option (Str × Str) :=
  ((List.range' 1 t.length).find? fun k =>
      (t.take k).all (fun c => c ≠ '\n') && pyStartsWith (t.drop k) ['*', '*']).map
    fun k => (t.take k, t.drop (k + 2))

/-- Try to match `\*\*\[[\w]+\]\s+(.+?)\*\*` at the start of `s`. -/
def matchTitleAt (s : Str) : Option (Str × Str) :=
  if pyStartsWith s ['*', '*', '['] then
    let afterBr := s.drop 3
    let w := afterBr.takeWhile isWordChar
    let afterW := afterBr.dropWhile isWordChar
    if !w.isEmpty && afterW.head? = some ']' then
      let afterBracket := afterW.tail
      let ws := afterBracket.takeWhile isPyWs
      let afterWs := afterBracket.dropWhile isPyWs
      if !ws.isEmpty then lazyTitle afterWs else none
    else none
  else none

/-- Model of `re.findall(r"\*\*\[[\w]+\]\s+(.+?)\*\*", body)`: the knowledge-entry
titles, scanning left to right without overlap. -/
def findTitlesAux : Nat → Str → List Str
  | 0, _ => []
  | _, [] => []
  | fuel + 1, s =>
    match matchTitleAt s with
    | some (title, remaining) => title :: findTitlesAux fuel remaining
    | none => findTitlesAux fuel s.tail

/-- Knowledge-entry titles present in a body. -/
def findTitles (body : Str) : List Str := findTitlesAux (body.length + 1) body

/-- A relation bullet as formatted by `_create_note`/`_update_note`:
`- {direction} **{type}** [[{other}]]{desc}`. -/
def relationLine (entityName : Str) (rel : ExtractedRelation) : Str :=
  let other := if rel.from_entity = entityName then rel.to_entity else rel.from_entity
  let direction := if rel.from_entity = entityName then '→' else '←'
  let desc := if rel.description.isEmpty then [] else ':' :: ' ' :: rel.description
  '-' :: ' ' :: direction :: ' ' :: '*' :: '*' :: rel.relation_type
    ++ '*' :: '*' :: ' ' :: '[' :: '[' :: other ++ ']' :: ']' :: desc

/-- The entity whose bullet a relation produces on this entity's note. -/
def relationOther (entityName : Str) (rel : ExtractedRelation) : Str :=
  if rel.from_entity = entityName then rel.to_entity else rel.from_entity

/-- Model of `VaultManager._create_note` (vault_manager.py:90-132): build the fresh
body (`# name`, then Facts / Relations / Knowledge sections when their
inputs are nonempty) and store it under the entity's front-matter type. -/
def create_note (stems : List Str) (today : Str) (entity : ExtractedEntity)
    (relations : List ExtractedRelation) (knowledge : List ExtractedKnowledge) : Note :=
  let factLines :=
    if entity.facts.isEmpty then []
    else ("## Facts\n".data) ::
      entity.facts.map (fun f => '-' :: ' ' :: add_wikilinks stems f entity.name) ++ [[]]
  let relLines :=
    if relations.isEmpty then []
    else ("## Relations\n".data) :: relations.map (relationLine entity.name) ++ [[]]
  let knowLines :=
    if knowledge.isEmpty then []
    else ("## Knowledge\n".data) :: knowledge.map (format_knowledge_entry stems today) ++ [[]]
  let lines := (('#' :: ' ' :: entity.name ++ ['\n']) :: factLines ++ relLines ++ knowLines)
  { fmType := entity.entity_type, body := normBody ((lines.intersperse ['\n']).flatten) }

/-- Model of `VaultManager._write_with_knowledge` (vault_manager.py:211-232): skip
entries whose title is already among the body's knowledge titles, then
append the rest to the Knowledge section (creating it at the end when
absent). -/
def write_with_knowledge (stems : List Str) (today : Str) (fmType : Str) (body : Str)
    (knowledge : List ExtractedKnowledge) : Note :=
  let existingTitles := findTitles body
  let newKnowledge := knowledge.filter fun k => k.title ∉ existingTitles
  if newKnowledge.isEmpty then { fmType := fmType, body := normBody body }
  else if pyContains body ("## Knowledge".data) then
    let body := newKnowledge.foldl
      (fun b k => pyRstrip b ++ '\n' :: '\n' :: format_knowledge_entry stems today k) body
    { fmType := fmType, body := normBody body }
  else
    let body := pyRstrip body ++ "\n\n## Knowledge\n\n".data
      ++ (newKnowledge.map fun k => format_knowledge_entry stems today k ++ ['\n']).flatten
    { fmType := fmType, body := normBody body }

/-- Model of `VaultManager._append_knowledge` (vault_manager.py:203-209). -/
def append_knowledge (stems : List Str) (today : Str) (note : Note)
    (knowledge : List ExtractedKnowledge) : Note :=
  write_with_knowledge stems today note.fmType note.body knowledge

/-- The `insert_at = next_section if next_section else len(body)` idiom
(Python truthiness: position `0` also falls back to the length). -/
def insertAt (body : Str) (next : Option Nat) : Nat :=
  match next with
  | some n => if n = 0 then body.length else n
  | none => body.length

/-- Model of `VaultManager._update_note` (vault_manager.py:134-201): filter the
incoming facts through `_fact_exists` against the body's existing facts and
splice them into the Facts section; filter relations against the body's
wiki-links and splice them into the Relations section; hand a nonempty
knowledge list to `_write_with_knowledge`; otherwise rewrite only when
something was added. -/
def update_note (stems : List Str) (today : Str) (note : Note) (entity : ExtractedEntity)
    (relations : List ExtractedRelation) (knowledge : List ExtractedKnowledge) : Note :=
  let body := note.body
  let existingFacts := extract_existing_facts body
  let newFacts := entity.facts.filter fun f => !fact_exists f existingFacts
  let body :=
    if !newFacts.isEmpty then
      if pyContains body ("## Facts".data) then
        let insertPos := (pyFind body ("## Facts".data)).getD 0
        let nextSection := find_next_section body (insertPos + 1)
        let iAt := insertAt body nextSection
        let newLines := (newFacts.map fun f =>
          '-' :: ' ' :: add_wikilinks stems f entity.name ++ ['\n']).flatten
        pyRstrip (body.take iAt) ++ '\n' :: newLines ++ '\n' :: body.drop iAt
      else
        pyRstrip body ++ "\n\n## Facts\n\n".data ++ (newFacts.map fun f =>
          '-' :: ' ' :: add_wikilinks stems f entity.name ++ ['\n']).flatten
    else body
  let existingLinks := findWikilinks body
  let newRels := relations.filter fun r => relationOther entity.name r ∉ existingLinks
  let body :=
    if !newRels.isEmpty then
      if pyContains body ("## Relations".data) then
        let insertPos := (pyFind body ("## Relations".data)).getD 0
        let nextSection := find_next_section body (insertPos + 1)
        let iAt := insertAt body nextSection
        let newLines := (newRels.map fun r => relationLine entity.name r ++ ['\n']).flatten
        pyRstrip (body.take iAt) ++ '\n' :: newLines ++ '\n' :: body.drop iAt
      else
        pyRstrip body ++ "\n\n## Relations\n\n".data
          ++ (newRels.map fun r => relationLine entity.name r ++ ['\n']).flatten
    else body
  if !knowledge.isEmpty then
    write_with_knowledge stems today note.fmType body knowledge
  else if !newFacts.isEmpty || !newRels.isEmpty then
    { fmType := note.fmType, body := normBody body }
  else
    note

/-- The merge statistics `process_extraction` returns. -/
structure MergeStats where
  created : List Str := []
  updated : List Str := []
deriving DecidableEq, Repr

/-- Note stems currently on disk (`glob("*.md")` stems). -/
def stemsOf (v : Vault) : List Str := v.map Prod.fst

/-- Model of `VaultManager.process_extraction` (vault_manager.py:42-60), one entity
of phase 1: create or update a note for it, carrying that entity's
relations and knowledge. -/
def entityStep (today : Str) (ex : ExtractionResult) (acc : Vault × MergeStats)
    (e : ExtractedEntity) : Vault × MergeStats :=
  let (v, st) := acc
  let stem := sanitize e.name
  let entityRelations := ex.relations.filter fun r =>
    r.from_entity = e.name ∨ r.to_entity = e.name
  let entityKnowledge := ex.knowledge.filter fun k => k.entity = e.name
  match vaultGet v stem with
  | some note =>
    (vaultSet v stem (update_note (stemsOf v) today note e entityRelations entityKnowledge),
     { st with updated := st.updated ++ [e.name] })
  | none =>
    (v ++ [(stem, create_note (stemsOf v) today e entityRelations entityKnowledge)],
     { st with created := st.created ++ [e.name] })

/-- Model of `process_extraction` phase 1 over all extracted entities. -/
def processEntities (today : Str) (ex : ExtractionResult) (v : Vault) (st : MergeStats) :
    Vault × MergeStats :=
  ex.entities.foldl (entityStep today ex) (v, st)

/-- Model of `process_extraction` (vault_manager.py:62-75), one knowledge entry of
phase 2: a knowledge entry whose entity was not among the extracted
entities is appended to that entity's note, creating a `concept` stub
first when the note is missing. -/
def knowledgeStep (today : Str) (acc : Vault × MergeStats × List Str)
    (k : ExtractedKnowledge) : Vault × MergeStats × List Str :=
  let (v, st, names) := acc
  if !k.entity.isEmpty && k.entity ∉ names then
    let stem := sanitize k.entity
    match vaultGet v stem with
    | some note =>
      (vaultSet v stem (append_knowledge (stemsOf v) today note [k]),
       if k.entity ∈ st.updated then (st, names)
       else ({ st with updated := st.updated ++ [k.entity] }, names))
    | none =>
      let stub : ExtractedEntity := { name := k.entity, entity_type := "concept".data, facts := [] }
      (v ++ [(stem, create_note (stemsOf v) today stub [] [k])],
       { st with created := st.created ++ [k.entity] }, names ++ [k.entity])
  else (v, st, names)

/-- Model of `process_extraction` phase 2 over all knowledge entries. -/
def processKnowledge (today : Str) (ex : ExtractionResult)
    (acc : Vault × MergeStats × List Str) : Vault × MergeStats × List Str :=
  ex.knowledge.foldl (knowledgeStep today) acc

/-- Model of `process_extraction` (vault_manager.py:77-86), one relation endpoint of
phase 3: a name not yet materialized gets a stub `concept` note when its
file is absent. -/
def endpointStep (today : Str) (acc : Vault × MergeStats × List Str)
    (name : Str) : Vault × MergeStats × List Str :=
  let (v, st, names) := acc
  if name ∉ names then
    let stem := sanitize name
    if (vaultGet v stem).isNone then
      let stub : ExtractedEntity := { name := name, entity_type := "concept".data, facts := [] }
      (v ++ [(stem, create_note (stemsOf v) today stub [] [])],
       { st with created := st.created ++ [name] }, names ++ [name])
    else (v, st, names)
  else (v, st, names)

/-- Model of `process_extraction`, phase 3: stub notes for names that appear only as
relation endpoints. -/
def processRelationStubs (today : Str) (ex : ExtractionResult)
    (acc : Vault × MergeStats × List Str) : Vault × MergeStats × List Str :=
  ex.relations.foldl (fun acc rel =>
    [rel.from_entity, rel.to_entity].foldl (endpointStep today) acc) acc

/-- Model of `VaultManager.process_extraction` (vault_manager.py:34-88): the three
phases in order, threading the vault, the statistics, and
`all_entity_names` (seeded from the extracted entities after phase 1). -/
def process_extraction (today : Str) (v : Vault) (ex : ExtractionResult) :
    Vault × MergeStats :=
  let p1 := processEntities today ex v {}
  let p2 := processKnowledge today ex (p1.1, p1.2, ex.entities.map (·.name))
  let p3 := processRelationStubs today ex p2
  (p3.1, p3.2.1)

/-! ## Hybrid retrieval (engine/retrieval/hybrid_search.py)

`VectorStore.search` and the knowledge graph live in modules that are not
part of the analysed sources; `HybridRetrieval.query` is embedded with the
vector search results and the graph accessors as parameters. -/

/-- Model of `SearchResult` of the vector store (fields per the spec's chunk entry;
only returned data, never constructed here). -/
structure SearchResult where
  chunk_id : Str
  entity_id : Str
  entity_name : Str
  sectionName : Str  -- `section` is the Python field name; `section` is a Lean keyword
  content : Str
  score : Rat
deriving DecidableEq, Repr

/-- A graph entity as `get_neighbors` returns it. -/
structure GEntity where
  id : Str
  name : Str
  entity_type : Str
deriving DecidableEq, Repr

/-- One `get_neighbors` item (`{entity, relation_type, direction}`;
`direction` is irrelevant to the settled claims and omitted). -/
structure Neighbor where
  entity : GEntity
  relation_type : Str
deriving DecidableEq, Repr

/-- State of step 2 of `HybridRetrieval.query` (hybrid_search.py:71-91):
`seen_entities`, the accumulated `graph_context`, and — for the analysis —
the IDs of the direct matches whose graph expansion was actually entered
(those that passed the `entity_id in seen_entities` check). -/
structure ExpandState where
  seen : List Str := []
  ctx : List Neighbor := []
  expanded : List Str := []
deriving Repr

/-- The inner loop of step 2 (hybrid_search.py:86-91): append a neighbor
when its entity ID is unseen. -/
def neighborStep (s : ExpandState) (n : Neighbor) : ExpandState :=
  if n.entity.id ∈ s.seen then s
  else { s with ctx := s.ctx ++ [n], seen := s.seen ++ [n.entity.id] }

/-- One direct match of step 2: skip it when its entity ID was already
seen; otherwise mark it seen, look the entity up, and append every
neighbor with an unseen ID. -/
def expandMatch (getEntity : Str → Option GEntity) (getNeighbors : Str → Nat → List Neighbor)
    (graphDepth : Nat) (s : ExpandState) (m : SearchResult) : ExpandState :=
  if m.entity_id ∈ s.seen then s
  else
    let s := { s with seen := s.seen ++ [m.entity_id], expanded := s.expanded ++ [m.entity_id] }
    match getEntity m.entity_id with
    | none => s
    | some _ => (getNeighbors m.entity_id graphDepth).foldl neighborStep s

/-- Step 2 of `HybridRetrieval.query` over all direct matches. -/
def graphExpansion (getEntity : Str → Option GEntity) (getNeighbors : Str → Nat → List Neighbor)
    (graphDepth : Nat) (ms : List SearchResult) : ExpandState :=
  ms.foldl (expandMatch getEntity getNeighbors graphDepth) {}

/-- Model of `RetrievalResult` (hybrid_search.py:16-35); `assembled_context` is a
rendering of the other two fields and is not modelled. -/
structure RetrievalResult where
  query : Str
  direct_matches : List SearchResult := []
  graph_context : List Neighbor := []
deriving Repr

/-- Model of `HybridRetrieval.query` (hybrid_search.py:53-95): vector search gives
the direct matches unfiltered; graph expansion fills `graph_context`. -/
def hybridQuery (vsearch : Str → Nat → Rat → List SearchResult)
    (getEntity : Str → Option GEntity) (getNeighbors : Str → Nat → List Neighbor)
    (text : Str) (topK : Nat := 5) (graphDepth : Nat := 1)
    (minScore : Rat := (15 : Rat) / 100) : RetrievalResult :=
  let dm := vsearch text topK minScore
  { query := text
    direct_matches := dm
    graph_context := (graphExpansion getEntity getNeighbors graphDepth dm).ctx }

/-! ## Cloud embedder (cloud/embedder.py) -/

/-- The successful-response path of `CloudEmbedder.embed_batch`
(cloud/embedder.py:87-88): the upstream items `(index, embedding)` are
sorted by their `index` field and the embeddings returned in that order.
Python's `sorted` is a stable merge sort. -/
def embed_batch_order (data : List (Nat × List Rat)) : List (List Rat) :=
  (data.mergeSort (fun a b => a.1 ≤ b.1)).map Prod.snd

/-! ## LLM client (engine/extractor/llm_client.py) -/

/-- A chat message (`{"role": …, "content": …}`). -/
structure Msg where
  role : Str
  content : Str
deriving DecidableEq, Repr

/-- The `for m in reversed(messages): if m["role"] == "user": …; break`
scan of `LLMClient.chat`, on the already-reversed list. -/
def lastUserScan : List Msg → Str
  | [] => []
  | m :: rest => if m.role = "user".data then m.content else lastUserScan rest

/-- Model of `LLMClient.chat` (llm_client.py:23-30): the default implementation
completes on the content of the most recent user message (empty string
when there is none), with `complete` abstract. -/
def llmChat (complete : Str → Str → Str) (messages : List Msg) (system : Str) : Str :=
  complete (lastUserScan messages.reverse) system

/-! ## Extractor response parsing (engine/extractor/conversation_extractor.py)

`json.loads` is the Python standard library; it enters the embedding as an
abstract decoder `Str → Option Json`.  Schemaless field accesses are
modelled at the types the extractor's dataclasses document; a response
whose field holds a value of an unexpected type would flow through
Python's dynamic typing (and crash in the vault manager later), and no
settled claim depends on such a response, so those accesses are modelled
as a parse failure (`none`, the exception-model). -/

/-- A decoded JSON value.  Numbers are modelled as rationals: every JSON
literal is a finite decimal. -/
inductive Json where
  | null
  | bool (b : Bool)
  | num (q : Rat)
  | str (s : Str)
  | arr (elems : List Json)
  | obj (fields : List (Str × Json))

/-- Model of `dict.get(key)`: the last binding wins (as in a decoded JSON object). -/
def objGet (fields : List (Str × Json)) (key : Str) : Option Json :=
  (fields.reverse.find? fun p => p.1 = key).map Prod.snd

/-- Model of `dict.get(key, default)` for string-valued fields. -/
def jStrD (fields : List (Str × Json)) (key : Str) (dflt : Str) : Option Str :=
  match objGet fields key with
  | none => some dflt
  | some (Json.str s) => some s
  | some _ => none

/-- Model of `dict.get(key)` for optional string fields: absent and `null` both
come back as Python `None`. -/
def jOptStr (fields : List (Str × Json)) (key : Str) : Option (Option Str) :=
  match objGet fields key with
  | none => some none
  | some Json.null => some none
  | some (Json.str s) => some (some s)
  | some _ => none

/-- A JSON value iterated as a list: arrays yield their elements; the
empty string and empty object iterate zero times (Python would accept
them silently); any other value raises on iteration or on the first
element's `.get`. -/
def Json.asIter : Json → Option (List Json)
  | Json.arr l => some l
  | Json.str [] => some []
  | Json.obj [] => some []
  | _ => none

/-- Model of `float(x)` as the episode parser applies it: numbers pass through,
booleans become 0/1; `null`, lists and objects raise `TypeError`.
(Numeric strings would parse in Python; no settled claim feeds one.) -/
def pyFloat : Json → Option Rat
  | Json.num q => some q
  | Json.bool b => some (if b then 1 else 0)
  | _ => none

/-- Model of `ExtractedFact` (conversation_extractor.py:190-193). -/
structure ExtractedFact where
  content : Str
  event_date : Option Str := none
deriving DecidableEq, Repr

/-- Extractor-side `ExtractedEntity`, whose facts carry event dates. -/
structure ExtEntityFull where
  name : Str
  entity_type : Str
  facts : List ExtractedFact
deriving DecidableEq, Repr

/-- Model of `ExtractedProcedure` (steps stay schemaless dicts). -/
structure ExtractedProcedure where
  name : Str
  trigger : Str := []
  steps : List Json := []
  entities : List Str := []

/-- The full `ExtractionResult` as `_parse_response` builds it. -/
structure ParsedResult where
  entities : List ExtEntityFull := []
  relations : List ExtractedRelation := []
  knowledge : List ExtractedKnowledge := []
  episodes : List ExtractedEpisode := []
  procedures : List ExtractedProcedure := []
  raw_response : Str := []

/-- One fact of an entity's `facts` list (conversation_extractor.py:340-348):
strings and dicts are normalized, anything else is silently skipped. -/
def parseFact : Json → Option (Option ExtractedFact)
  | Json.str s => some (some { content := s })
  | Json.obj f => do
    let content ← match objGet f "fact".data with
      | some (Json.str s) => some s
      | some _ => none
      | none => match objGet f "content".data with
        | some (Json.str s) => some s
        | some _ => none
        | none => some []
    let when ← match objGet f "when".data with
      | some Json.null => some none
      | some (Json.str s) => some (some s)
      | some _ => none
      | none => jOptStr f "event_date".data
    some (some { content := content, event_date := when })
  | _ => some none

/-- One element of `data.get("entities", [])`
(conversation_extractor.py:338-353). -/
def parseEntity : Json → Option ExtEntityFull
  | Json.obj e => do
    let rawFacts ← (objGet e "facts".data |>.getD (Json.arr [])).asIter
    let parsed ← rawFacts.foldlM (fun acc f => do
      let r ← parseFact f
      pure (match r with | some fact => acc ++ [fact] | none => acc)) []
    let name ← jStrD e "name".data "Unknown".data
    let ty ← jStrD e "type".data "concept".data
    some { name := name, entity_type := ty, facts := parsed }
  | _ => none

/-- One element of `data.get("relations", [])`
(conversation_extractor.py:356-362). -/
def parseRelation : Json → Option ExtractedRelation
  | Json.obj r => do
    let fromE ← jStrD r "from".data []
    let toE ← jStrD r "to".data []
    let ty ← jStrD r "type".data "related_to".data
    let desc ← jStrD r "description".data []
    some { from_entity := fromE, to_entity := toE, relation_type := ty, description := desc }
  | _ => none

/-- One element of `data.get("knowledge", [])`
(conversation_extractor.py:365-372). -/
def parseKnowledge : Json → Option ExtractedKnowledge
  | Json.obj k => do
    let entity ← jStrD k "entity".data []
    let ty ← jStrD k "type".data "insight".data
    let title ← jStrD k "title".data []
    let content ← jStrD k "content".data []
    let artifact ← jOptStr k "artifact".data
    some { entity := entity, knowledge_type := ty, title := title, content := content,
           artifact := artifact }
  | _ => none

/-- One element of `data.get("episodes", [])`
(conversation_extractor.py:375-387).  `happened_at` keeps Python's
truthiness quirk: the empty string is falsy, so it is stored as-is rather
than normalized to absent. -/
def parseEpisode : Json → Option ExtractedEpisode
  | Json.obj ep => do
    let happenedRaw ← jOptStr ep "happened_at".data
    let happened := match happenedRaw with
      | none => none
      | some [] => some []
      | some s =>
        if pyLower s = "null".data ∨ pyLower s = "none".data ∨ pyLower s = "unknown".data
        then none else some s
    let summary ← jStrD ep "summary".data []
    let context ← jStrD ep "context".data []
    let outcome ← jStrD ep "outcome".data []
    let parts ← (objGet ep "participants".data |>.getD (Json.arr [])).asIter
    let participants ← parts.mapM fun p => match p with
      | Json.str s => some s
      | _ => none
    let valence ← jStrD ep "emotional_valence".data "neutral".data
    let importance ← pyFloat (objGet ep "importance".data |>.getD (Json.num ((1 : Rat) / 2)))
    some { summary := summary, context := context, outcome := outcome,
           participants := participants, emotional_valence := valence,
           importance := importance, happened_at := happened }
  | _ => none

/-- One element of `data.get("procedures", [])`
(conversation_extractor.py:390-396). -/
def parseProcedure : Json → Option ExtractedProcedure
  | Json.obj pr => do
    let name ← jStrD pr "name".data []
    let trigger ← jStrD pr "trigger".data []
    let steps ← (objGet pr "steps".data |>.getD (Json.arr [])).asIter
    let ents ← (objGet pr "entities".data |>.getD (Json.arr [])).asIter
    let entities ← ents.mapM fun e => match e with
      | Json.str s => some s
      | _ => none
    some { name := name, trigger := trigger, steps := steps, entities := entities }
  | _ => none

/-- Build the `ExtractionResult` from successfully decoded JSON
(conversation_extractor.py:338-398). -/
def buildResult (raw : Str) : Json → Option ParsedResult
  | Json.obj d => do
    let es ← (objGet d "entities".data |>.getD (Json.arr [])).asIter
    let entities ← es.mapM parseEntity
    let rs ← (objGet d "relations".data |>.getD (Json.arr [])).asIter
    let relations ← rs.mapM parseRelation
    let ks ← (objGet d "knowledge".data |>.getD (Json.arr [])).asIter
    let knowledge ← ks.mapM parseKnowledge
    let eps ← (objGet d "episodes".data |>.getD (Json.arr [])).asIter
    let episodes ← eps.mapM parseEpisode
    let prs ← (objGet d "procedures".data |>.getD (Json.arr [])).asIter
    let procedures ← prs.mapM parseProcedure
    some { entities := entities, relations := relations, knowledge := knowledge,
           episodes := episodes, procedures := procedures, raw_response := raw }
  | _ => none

/-- Python `haystack.rfind(needle)` (last index, `none` for `-1`). -/
def pyRfind (hay sub : Str) : Option Nat :=
  ((List.range (hay.length - sub.length + 1)).filter fun i =>
    (hay.drop i).take sub.length = sub).getLast?

/-- Join with newlines (inverse of the `"\n".join(lines)` idiom). -/
def joinNL (lines : List Str) : Str := (lines.intersperse ['\n']).flatten

/-- The markdown-fence stripping of `_parse_response`
(conversation_extractor.py:317-320). -/
def stripFence (clean : Str) : Str :=
  if pyStartsWith clean ("```".data) then
    let lines := splitOnChar '\n' clean
    if pyStrip ((lines.getLast?).getD []) = "```".data then
      joinNL (lines.drop 1).dropLast
    else
      joinNL (lines.drop 1)
  else clean

/-- Model of `ConversationExtractor._parse_response` (conversation_extractor.py:313-398)
with the JSON decoder abstract.  `none` models an exception escaping the
method; the empty result with the raw response retained models the
warn-and-return fallback. -/
def parse_response (jsonLoads : Str → Option Json) (raw : Str) : Option ParsedResult :=
  let emptyR : ParsedResult := { raw_response := raw }
  let clean := stripFence (pyStrip raw)
  match jsonLoads clean with
  | some data => buildResult raw data
  | none =>
    match pyFind raw ['{'], pyRfind raw ['}'] with
    | some s, some e =>
      if s < e + 1 then
        match jsonLoads ((raw.take (e + 1)).drop s) with
        | some data => buildResult raw data
        | none => some emptyR
      else some emptyR
    | _, _ => some emptyR

/-! ## Memory delete/get (mengram.py)

`Memory.get` consults `brain.graph.find_entity` and `Memory.search` the
vector index; the graph and vector modules are not among the analysed
sources.  Modelled from the spec: the derived graph has one entity per
note stem and `find_entity` is a case-insensitive exact match against the
stems (§4.5); the vector index's entries carry the entity of the note
their chunk came from (§4.6); both views are transient and rebuilt from
the vault on the next read after an invalidation (§3.4). -/

/-- Modelled from the spec: `KnowledgeGraph.find_entity` — case-insensitive
exact match of the name against the note stems (the graph has one entity
node per note). -/
def find_entity (v : Vault) (name : Str) : Option Str :=
  (stemsOf v).find? fun s => pyLower s = pyLower name

/-- Model of `Memory.delete` (mengram.py:290-305): remove the note file at the
sanitized path when it exists and invalidate the derived graph; the
derived views are rebuilt from the vault on the next read. -/
def memory_delete (v : Vault) (name : Str) : Vault × Bool :=
  let stem := sanitize name
  if (vaultGet v stem).isSome then
    (v.filter fun p => p.1 ≠ stem, true)
  else (v, false)

/-- Model of `Memory.get` (mengram.py:255-288) up to its absence test: `None`
exactly when `find_entity` fails on the rebuilt graph. -/
def memory_get (v : Vault) (name : Str) : Option Str :=
  find_entity v name

/-! ## String-normalization lemmas -/

theorem char_eq_iff_toNat {a b : Char} : a = b ↔ a.toNat = b.toNat :=
  ⟨fun h => h ▸ rfl, fun h => Char.eq_of_val_eq (UInt32.ext h)⟩

theorem ofNat_toNat_small {n : Nat} (h : n < 55296) : (Char.ofNat n).toNat = n := by
  unfold Char.ofNat
  split
  · rfl
  · rename_i hv
    exact absurd (Or.inl h) hv

theorem pyLowerChar_toNat (c : Char) :
    (pyLowerChar c).toNat = if 65 ≤ c.toNat ∧ c.toNat ≤ 90 then c.toNat + 32 else c.toNat := by
  unfold pyLowerChar
  split <;> rename_i h
  · exact ofNat_toNat_small (by omega)
  · rfl

theorem pyLowerChar_idem (c : Char) : pyLowerChar (pyLowerChar c) = pyLowerChar c := by
  apply char_eq_iff_toNat.mpr
  have h1 := pyLowerChar_toNat c
  have h2 := pyLowerChar_toNat (pyLowerChar c)
  rw [h1] at h2
  rw [h2, h1]
  split_ifs <;> omega

theorem pyLower_idem (s : Str) : pyLower (pyLower s) = pyLower s := by
  unfold pyLower
  rw [List.map_map]
  exact List.map_congr_left fun c _ => pyLowerChar_idem c

theorem isPyWs_false_of_ge {c : Char} (h : 33 ≤ c.toNat) : isPyWs c = false := by
  unfold isPyWs
  simp only [Bool.or_eq_false_iff, decide_eq_false_iff_not]
  refine ⟨⟨⟨⟨⟨?_, ?_⟩, ?_⟩, ?_⟩, ?_⟩, ?_⟩ <;> (intro he; subst he; revert h; decide)

theorem isPyWs_pyLowerChar (c : Char) : isPyWs (pyLowerChar c) = isPyWs c := by
  by_cases h : 65 ≤ c.toNat ∧ c.toNat ≤ 90
  · have ht := pyLowerChar_toNat c
    rw [if_pos h] at ht
    rw [isPyWs_false_of_ge (c := c) (by omega), isPyWs_false_of_ge (by omega : 33 ≤ (pyLowerChar c).toNat)]
  · unfold pyLowerChar
    rw [if_neg h]

theorem isPyWs_comp_pyLowerChar : isPyWs ∘ pyLowerChar = isPyWs :=
  funext isPyWs_pyLowerChar

theorem pyLower_pyLstrip (s : Str) : pyLower (pyLstrip s) = pyLstrip (pyLower s) := by
  unfold pyLower pyLstrip
  rw [List.dropWhile_map, isPyWs_comp_pyLowerChar]

theorem pyLower_pyRstrip (s : Str) : pyLower (pyRstrip s) = pyRstrip (pyLower s) := by
  unfold pyLower pyRstrip
  rw [List.map_reverse, ← List.map_reverse pyLowerChar s, List.dropWhile_map,
    isPyWs_comp_pyLowerChar]

theorem pyLower_pyStrip (s : Str) : pyLower (pyStrip s) = pyStrip (pyLower s) := by
  unfold pyStrip
  rw [pyLower_pyRstrip, pyLower_pyLstrip]

theorem dropWhile_idem (p : Char → Bool) (l : Str) :
    List.dropWhile p (List.dropWhile p l) = List.dropWhile p l := by
  rw [List.dropWhile_eq_self_iff]
  intro hl
  exact List.dropWhile_get_zero_not p l hl

theorem pyLstrip_idem (s : Str) : pyLstrip (pyLstrip s) = pyLstrip s :=
  dropWhile_idem isPyWs s

theorem pyRstrip_idem (s : Str) : pyRstrip (pyRstrip s) = pyRstrip s := by
  unfold pyRstrip
  rw [List.reverse_reverse, dropWhile_idem]

theorem pyLstrip_of_leading {z y : Str} (hz : List.IsPrefix z y) (hy : pyLstrip y = y) :
    pyLstrip z = z := by
  obtain ⟨t, ht⟩ := hz
  subst ht
  unfold pyLstrip at *
  cases z with
  | nil => rfl
  | cons a z' =>
    rw [List.cons_append] at hy
    rw [List.dropWhile_cons] at hy ⊢
    by_cases hp : isPyWs a
    · rw [if_pos hp] at hy
      obtain ⟨u, hu⟩ := List.dropWhile_suffix (l := z' ++ t) isPyWs
      rw [hy] at hu
      have := congrArg List.length hu
      simp [List.length_append] at this
      omega
    · rw [if_neg hp]

theorem pyRstrip_leading (y : Str) : List.IsPrefix (pyRstrip y) y := by
  unfold pyRstrip
  conv_rhs => rw [← List.reverse_reverse y]
  exact List.reverse_prefix.mpr (List.dropWhile_suffix isPyWs)

theorem pyStrip_idem (s : Str) : pyStrip (pyStrip s) = pyStrip s := by
  unfold pyStrip
  rw [pyLstrip_of_leading (pyRstrip_leading (pyLstrip s)) (pyLstrip_idem s), pyRstrip_idem]

/-- The normal form stored by `_extract_existing_facts` is a fixed point of
lowercase-and-strip. -/
theorem pyStrip_pyLower_fixpoint (z : Str) :
    pyStrip (pyLower (pyStrip (pyLower z))) = pyStrip (pyLower z) := by
  rw [pyLower_pyStrip, pyLower_idem, pyStrip_idem]

/-- Every fact `_extract_existing_facts` stores is lowercased-and-stripped
already. -/
theorem extract_existing_facts_normalized (body : Str) :
    ∀ e ∈ extract_existing_facts body, pyStrip (pyLower e) = e := by
  intro e he
  unfold extract_existing_facts at he
  obtain ⟨line, _, hline⟩ := List.mem_filterMap.mp he
  dsimp only at hline
  split at hline
  · cases hline
    exact pyStrip_pyLower_fixpoint _
  · cases hline

theorem any_congr_mem {α : Type} {l : List α} {f g : α → Bool}
    (h : ∀ a ∈ l, f a = g a) : l.any f = l.any g := by
  induction l with
  | nil => rfl
  | cons a t ih =>
    simp only [List.any_cons]
    rw [h a (by simp), ih fun x hx => h x (by simp [hx])]

/-- C3 — the near-duplicate test the merge applies (`_fact_exists` over the
facts extracted from the note body) coincides, fact for fact, with the
reference definition `refFactDup`: lowercase, split on whitespace into
token sets, and compare `|new ∩ existing| / |new|` against 0.7.  Both are
pure functions of the two fact strings. -/
theorem fact_dedup_matches_reference (newFact body : Str) :
    fact_exists newFact (extract_existing_facts body) =
      (extract_existing_facts body).any fun e => refFactDup newFact e := by
  unfold fact_exists refFactDup
  apply any_congr_mem
  intro e he
  rw [extract_existing_facts_normalized body e he]
  rcases h : (tokenSet (pyStrip (pyLower newFact))).isEmpty with _ | _
  · simp only [h, Bool.false_eq_true, if_false]
  · rw [if_pos h, List.isEmpty_iff.mp h]
    simp

/-! ## Vault-lookup lemmas -/

theorem vaultGet_cons (p : Str × Note) (v : Vault) (s : Str) :
    vaultGet (p :: v) s = if p.1 = s then some p.2 else vaultGet v s := by
  unfold vaultGet
  rw [List.find?_cons]
  by_cases h : p.1 = s
  · simp [h]
  · simp [h]

/-- The entry-overwriting branch of `vaultSet`. -/
def mapUpdate (v : Vault) (s : Str) (n : Note) : Vault :=
  v.map fun p => if p.1 = s then (s, n) else p

theorem vaultGet_isSome_iff (v : Vault) (s : Str) :
    (vaultGet v s).isSome = (v.find? fun p => p.1 = s).isSome := by
  cases hf : v.find? fun p => p.1 = s <;> simp [vaultGet, hf]

theorem vaultSet_eq_mapUpdate {v : Vault} {s : Str} (n : Note)
    (h : (vaultGet v s).isSome) : vaultSet v s n = mapUpdate v s n := by
  rw [vaultGet_isSome_iff] at h
  unfold vaultSet mapUpdate
  rw [if_pos h]

theorem vaultSet_eq_append {v : Vault} {s : Str} (n : Note)
    (h : vaultGet v s = none) : vaultSet v s n = v ++ [(s, n)] := by
  have h' : ((v.find? fun p => p.1 = s).isSome) = false := by
    rw [← vaultGet_isSome_iff, h]
    rfl
  unfold vaultSet
  rw [if_neg (by simp [h'])]

theorem vaultGet_mapUpdate_of_ne {v : Vault} {s s' : Str} (n : Note) (hne : s ≠ s') :
    vaultGet (mapUpdate v s' n) s = vaultGet v s := by
  induction v with
  | nil => rfl
  | cons q t ih =>
    unfold mapUpdate at ih ⊢
    rw [List.map_cons, vaultGet_cons, vaultGet_cons]
    by_cases hq : q.1 = s'
    · rw [if_pos hq]
      have h1 : ¬ ((s', n).1 = s) := fun he => hne he.symm
      have h2 : ¬ (q.1 = s) := fun he => hne (he.symm.trans hq)
      rw [if_neg h1, if_neg h2, ih]
    · rw [if_neg hq, ih]

theorem vaultGet_mapUpdate_self {v : Vault} {s : Str} (n : Note)
    (h : (vaultGet v s).isSome) : vaultGet (mapUpdate v s n) s = some n := by
  induction v with
  | nil => simp [vaultGet] at h
  | cons q t ih =>
    unfold mapUpdate at ih ⊢
    rw [List.map_cons, vaultGet_cons]
    by_cases hq : q.1 = s
    · rw [if_pos hq]
      simp
    · rw [if_neg hq]
      rw [vaultGet_cons, if_neg hq] at h
      simp only [if_neg hq]
      exact ih h

theorem vaultGet_append_single (v : Vault) (s s' : Str) (n : Note) :
    vaultGet (v ++ [(s', n)]) s =
      ((vaultGet v s).or (if s' = s then some n else none)) := by
  induction v with
  | nil =>
    rw [List.nil_append, vaultGet_cons]
    rfl
  | cons q t ih =>
    rw [List.cons_append, vaultGet_cons, vaultGet_cons]
    by_cases hq : q.1 = s
    · rw [if_pos hq, if_pos hq]
      rfl
    · rw [if_neg hq, if_neg hq, ih]

theorem vaultGet_append_of_ne {v : Vault} {s s' : Str} (n : Note)
    (hne : s' ≠ s) (h : vaultGet v s = none) : vaultGet (v ++ [(s', n)]) s = none := by
  rw [vaultGet_append_single, h, if_neg hne]
  rfl

theorem vaultGet_append_self {v : Vault} {s : Str} (n : Note)
    (h : vaultGet v s = none) : vaultGet (v ++ [(s, n)]) s = some n := by
  rw [vaultGet_append_single, h, if_pos rfl]
  rfl

theorem vaultGet_append_of_some {v : Vault} {s s' : Str} {m : Note} (n : Note)
    (h : vaultGet v s = some m) : vaultGet (v ++ [(s', n)]) s = some m := by
  rw [vaultGet_append_single, h]
  rfl

theorem present_vaultSet {v : Vault} {s : Str} (s' : Str) (n : Note)
    (h : (vaultGet v s).isSome) : (vaultGet (vaultSet v s' n) s).isSome := by
  by_cases hp : (vaultGet v s').isSome
  · rw [vaultSet_eq_mapUpdate n hp]
    by_cases he : s = s'
    · subst he
      rw [vaultGet_mapUpdate_self n h]
      rfl
    · rw [vaultGet_mapUpdate_of_ne n he]
      exact h
  · rw [vaultSet_eq_append n (Option.not_isSome_iff_eq_none.mp hp)]
    obtain ⟨m, hm⟩ := Option.isSome_iff_exists.mp h
    rw [vaultGet_append_of_some n hm]
    rfl

theorem present_append_single {v : Vault} {s s' : Str} (n : Note)
    (h : (vaultGet v s).isSome) : (vaultGet (v ++ [(s', n)]) s).isSome := by
  obtain ⟨m, hm⟩ := Option.isSome_iff_exists.mp h
  rw [vaultGet_append_of_some n hm]
  rfl

theorem vaultSet_self_isSome (v : Vault) (s : Str) (n : Note) :
    (vaultGet (vaultSet v s n) s).isSome := by
  by_cases hp : (vaultGet v s).isSome
  · rw [vaultSet_eq_mapUpdate n hp, vaultGet_mapUpdate_self n hp]
    rfl
  · rw [vaultSet_eq_append n (Option.not_isSome_iff_eq_none.mp hp),
      vaultGet_append_self n (Option.not_isSome_iff_eq_none.mp hp)]
    rfl

theorem vaultGet_vaultSet_of_ne {v : Vault} {s s' : Str} (n : Note) (hne : s ≠ s') :
    vaultGet (vaultSet v s' n) s = vaultGet v s := by
  by_cases hp : (vaultGet v s').isSome
  · rw [vaultSet_eq_mapUpdate n hp, vaultGet_mapUpdate_of_ne n hne]
  · rw [vaultSet_eq_append n (Option.not_isSome_iff_eq_none.mp hp),
      vaultGet_append_single, if_neg (fun he => hne he.symm)]
    cases vaultGet v s <;> rfl

/-! ## Generic fold lemmas -/

theorem foldl_pres {σ α : Type} (P : σ → Prop) (f : σ → α → σ)
    (h : ∀ s a, P s → P (f s a)) : ∀ (l : List α) (s : σ), P s → P (l.foldl f s) := by
  intro l
  induction l with
  | nil => intro s hs; exact hs
  | cons a t ih => intro s hs; exact ih (f s a) (h s a hs)

theorem foldl_inv_establish {σ α : Type} (I : σ → Prop) (P : σ → α → Prop) (f : σ → α → σ)
    (hI : ∀ s a, I s → I (f s a))
    (hstep : ∀ s a, I s → P (f s a) a)
    (hpres : ∀ s a b, P s b → P (f s a) b) :
    ∀ (l : List α) (s : σ), I s → I (l.foldl f s) ∧ ∀ a ∈ l, P (l.foldl f s) a := by
  intro l
  induction l with
  | nil => intro s hs; exact ⟨hs, by simp⟩
  | cons a t ih =>
    intro s hs
    have h1 : I (f s a) := hI s a hs
    have h2 : P (f s a) a := hstep s a hs
    obtain ⟨hIf, hPf⟩ := ih (f s a) h1
    refine ⟨hIf, ?_⟩
    intro b hb
    rcases List.mem_cons.mp hb with hba | hbt
    · cases hba
      exact foldl_pres (fun s => P s a) f (fun s x hx => hpres s x a hx) t (f s a) h2
    · exact hPf b hbt

theorem foldl_pres_mem {σ α : Type} (P : σ → Prop) (f : σ → α → σ) :
    ∀ (l : List α), (∀ s a, a ∈ l → P s → P (f s a)) → ∀ s, P s → P (l.foldl f s) := by
  intro l
  induction l with
  | nil => intro _ s hs; exact hs
  | cons a t ih =>
    intro h s hs
    exact ih (fun s x hx hsx => h s x (List.mem_cons_of_mem a hx) hsx) (f s a)
      (h s a (List.mem_cons_self a t) hs)

theorem foldl_inv_establish_mem {σ α : Type} (I : σ → Prop) (P : σ → α → Prop)
    (f : σ → α → σ) :
    ∀ (l : List α),
    (∀ s a, a ∈ l → I s → I (f s a)) →
    (∀ s a, a ∈ l → I s → P (f s a) a) →
    (∀ s a b, a ∈ l → P s b → P (f s a) b) →
    ∀ s, I s → I (l.foldl f s) ∧ ∀ a ∈ l, P (l.foldl f s) a := by
  intro l
  induction l with
  | nil => intro _ _ _ s hs; exact ⟨hs, by simp⟩
  | cons a t ih =>
    intro hI hstep hpres s hs
    have h1 : I (f s a) := hI s a (List.mem_cons_self a t) hs
    have h2 : P (f s a) a := hstep s a (List.mem_cons_self a t) hs
    obtain ⟨hIf, hPf⟩ := ih (fun s x hx => hI s x (List.mem_cons_of_mem a hx))
      (fun s x hx => hstep s x (List.mem_cons_of_mem a hx))
      (fun s x b hx => hpres s x b (List.mem_cons_of_mem a hx)) (f s a) h1
    refine ⟨hIf, ?_⟩
    intro b hb
    rcases List.mem_cons.mp hb with hba | hbt
    · cases hba
      exact foldl_pres_mem (fun st => P st a) f t
        (fun st x hx hst => hpres st x a (List.mem_cons_of_mem a hx) hst) (f s a) h2
    · exact hPf b hbt

/-! ## Step lemmas for `process_extraction` -/

/-- The note a phase-2/phase-3 stub creation writes. -/
def stubNote (name : Str) : Note :=
  { fmType := "concept".data, body := normBody ('#' :: ' ' :: name ++ ['\n']) }

theorem create_note_stub (stems : List Str) (today name : Str) :
    create_note stems today { name := name, entity_type := "concept".data, facts := [] } [] [] =
      stubNote name := by
  unfold create_note stubNote
  simp [List.intersperse]

/-- Unfolding equation for `entityStep` on a literal state. -/
theorem entityStep_eq (today : Str) (ex : ExtractionResult) (v : Vault) (st : MergeStats)
    (e : ExtractedEntity) :
    entityStep today ex (v, st) e =
      match vaultGet v (sanitize e.name) with
      | some note =>
        (vaultSet v (sanitize e.name) (update_note (stemsOf v) today note e
            (ex.relations.filter fun r => r.from_entity = e.name ∨ r.to_entity = e.name)
            (ex.knowledge.filter fun k => k.entity = e.name)),
         { st with updated := st.updated ++ [e.name] })
      | none =>
        (v ++ [(sanitize e.name, create_note (stemsOf v) today e
            (ex.relations.filter fun r => r.from_entity = e.name ∨ r.to_entity = e.name)
            (ex.knowledge.filter fun k => k.entity = e.name))],
         { st with created := st.created ++ [e.name] }) := rfl

/-- Unfolding equation for `knowledgeStep` on a literal state. -/
theorem knowledgeStep_eq (today : Str) (v : Vault) (st : MergeStats) (names : List Str)
    (k : ExtractedKnowledge) :
    knowledgeStep today (v, st, names) k =
      if !k.entity.isEmpty && k.entity ∉ names then
        match vaultGet v (sanitize k.entity) with
        | some note =>
          (vaultSet v (sanitize k.entity) (append_knowledge (stemsOf v) today note [k]),
           if k.entity ∈ st.updated then (st, names)
           else ({ st with updated := st.updated ++ [k.entity] }, names))
        | none =>
          (v ++ [(sanitize k.entity, create_note (stemsOf v) today
              { name := k.entity, entity_type := "concept".data, facts := [] } [] [k])],
           { st with created := st.created ++ [k.entity] }, names ++ [k.entity])
      else (v, st, names) := rfl

/-- Unfolding equation for `endpointStep` on a literal state. -/
theorem endpointStep_eq (today : Str) (v : Vault) (st : MergeStats) (names : List Str)
    (n' : Str) :
    endpointStep today (v, st, names) n' =
      if n' ∉ names then
        if (vaultGet v (sanitize n')).isNone then
          (v ++ [(sanitize n', create_note (stemsOf v) today
              { name := n', entity_type := "concept".data, facts := [] } [] [])],
           { st with created := st.created ++ [n'] }, names ++ [n'])
        else (v, st, names)
      else (v, st, names) := rfl

/-- Model of `all_entity_names` invariant: every name in the running set has a note. -/
def namesPresent (acc : Vault × MergeStats × List Str) : Prop :=
  ∀ n ∈ acc.2.2, (vaultGet acc.1 (sanitize n)).isSome

theorem entityStep_pres (today : Str) (ex : ExtractionResult)
    (acc : Vault × MergeStats) (e : ExtractedEntity) (s₀ : Str)
    (h : (vaultGet acc.1 s₀).isSome) :
    (vaultGet (entityStep today ex acc e).1 s₀).isSome := by
  obtain ⟨v, st⟩ := acc
  rw [entityStep_eq]
  cases hv : vaultGet v (sanitize e.name) with
  | some note => exact present_vaultSet _ _ h
  | none => exact present_append_single _ h

theorem entityStep_self (today : Str) (ex : ExtractionResult)
    (acc : Vault × MergeStats) (e : ExtractedEntity) :
    (vaultGet (entityStep today ex acc e).1 (sanitize e.name)).isSome := by
  obtain ⟨v, st⟩ := acc
  rw [entityStep_eq]
  cases hv : vaultGet v (sanitize e.name) with
  | some note => exact vaultSet_self_isSome _ _ _
  | none =>
    show (vaultGet (v ++ [(sanitize e.name, _)]) (sanitize e.name)).isSome
    rw [vaultGet_append_self _ hv]
    rfl

theorem entityStep_avoid (today : Str) (ex : ExtractionResult)
    (acc : Vault × MergeStats) (e : ExtractedEntity) (s₀ : Str)
    (hne : sanitize e.name ≠ s₀) (h : vaultGet acc.1 s₀ = none) :
    vaultGet (entityStep today ex acc e).1 s₀ = none := by
  obtain ⟨v, st⟩ := acc
  rw [entityStep_eq]
  cases hv : vaultGet v (sanitize e.name) with
  | some note =>
    show vaultGet (vaultSet v (sanitize e.name) _) s₀ = none
    rw [vaultGet_vaultSet_of_ne _ (fun he => hne he.symm)]
    exact h
  | none =>
    show vaultGet (v ++ [(sanitize e.name, _)]) s₀ = none
    exact vaultGet_append_of_ne _ hne h

theorem knowledgeStep_pres (today : Str) (acc : Vault × MergeStats × List Str)
    (k : ExtractedKnowledge) (s₀ : Str) (h : (vaultGet acc.1 s₀).isSome) :
    (vaultGet (knowledgeStep today acc k).1 s₀).isSome := by
  obtain ⟨v, st, names⟩ := acc
  rw [knowledgeStep_eq]
  split
  · cases hv : vaultGet v (sanitize k.entity) with
    | some note => exact present_vaultSet _ _ h
    | none => exact present_append_single _ h
  · exact h

theorem knowledgeStep_inv (today : Str) (acc : Vault × MergeStats × List Str)
    (k : ExtractedKnowledge) (h : namesPresent acc) :
    namesPresent (knowledgeStep today acc k) := by
  obtain ⟨v, st, names⟩ := acc
  rw [knowledgeStep_eq]
  split
  · cases hv : vaultGet v (sanitize k.entity) with
    | some note =>
      intro n hn
      dsimp only at hn ⊢
      refine present_vaultSet _ _ (h n ?_)
      split at hn <;> simpa using hn
    | none =>
      intro n hn
      dsimp only at hn ⊢
      rcases List.mem_append.mp hn with hn' | hn'
      · exact present_append_single _ (h n hn')
      · have hnk : n = k.entity := by simpa using hn'
        subst hnk
        rw [vaultGet_append_self _ hv]
        rfl
  · exact h

theorem knowledgeStep_avoid (today : Str) (acc : Vault × MergeStats × List Str)
    (k : ExtractedKnowledge) (s₀ name : Str)
    (hkne : sanitize k.entity ≠ s₀) (hne : k.entity ≠ name)
    (h1 : vaultGet acc.1 s₀ = none) (h2 : name ∉ acc.2.2) :
    vaultGet (knowledgeStep today acc k).1 s₀ = none ∧
      name ∉ (knowledgeStep today acc k).2.2 := by
  obtain ⟨v, st, names⟩ := acc
  rw [knowledgeStep_eq]
  split
  · cases hv : vaultGet v (sanitize k.entity) with
    | some note =>
      constructor
      · show vaultGet (vaultSet v (sanitize k.entity) _) s₀ = none
        rw [vaultGet_vaultSet_of_ne _ (fun he => hkne he.symm)]
        exact h1
      · dsimp only
        split <;> simpa using h2
    | none =>
      refine ⟨vaultGet_append_of_ne _ hkne h1, ?_⟩
      intro hmem
      rcases List.mem_append.mp hmem with hn' | hn'
      · exact h2 hn'
      · have hnk : name = k.entity := by simpa using hn'
        exact hne hnk.symm
  · exact ⟨h1, h2⟩

theorem endpointStep_pres (today : Str) (acc : Vault × MergeStats × List Str)
    (n' : Str) (s₀ : Str) (h : (vaultGet acc.1 s₀).isSome) :
    (vaultGet (endpointStep today acc n').1 s₀).isSome := by
  obtain ⟨v, st, names⟩ := acc
  rw [endpointStep_eq]
  split
  · split
    · exact present_append_single _ h
    · exact h
  · exact h

theorem endpointStep_pres_some (today : Str) (acc : Vault × MergeStats × List Str)
    (n' : Str) (s₀ : Str) (m : Note) (h : vaultGet acc.1 s₀ = some m) :
    vaultGet (endpointStep today acc n').1 s₀ = some m := by
  obtain ⟨v, st, names⟩ := acc
  rw [endpointStep_eq]
  split
  · split
    · exact vaultGet_append_of_some _ h
    · exact h
  · exact h

theorem endpointStep_inv (today : Str) (acc : Vault × MergeStats × List Str)
    (n' : Str) (h : namesPresent acc) : namesPresent (endpointStep today acc n') := by
  obtain ⟨v, st, names⟩ := acc
  rw [endpointStep_eq]
  split
  · split <;> rename_i hno
    · intro n hn
      dsimp only at hn ⊢
      rcases List.mem_append.mp hn with hn' | hn'
      · exact present_append_single _ (h n hn')
      · have hnn : n = n' := by simpa using hn'
        subst hnn
        rw [vaultGet_append_self _ (Option.isNone_iff_eq_none.mp hno)]
        rfl
    · exact h
  · exact h

theorem endpointStep_self (today : Str) (acc : Vault × MergeStats × List Str)
    (n' : Str) (h : namesPresent acc) :
    (vaultGet (endpointStep today acc n').1 (sanitize n')).isSome := by
  obtain ⟨v, st, names⟩ := acc
  rw [endpointStep_eq]
  split <;> rename_i hmem
  · split <;> rename_i hno
    · show (vaultGet (v ++ [(sanitize n', _)]) (sanitize n')).isSome
      rw [vaultGet_append_self _ (Option.isNone_iff_eq_none.mp hno)]
      rfl
    · exact Option.ne_none_iff_isSome.mp fun hc => hno (Option.isNone_iff_eq_none.mpr hc)
  · exact h n' (by simpa using hmem)

/-- The phase-3 invariant for a fresh stem `s₀ = sanitize name`: either the
stem is still absent and `name` not yet in `all_entity_names`, or the stem
holds exactly the concept stub for `name`. -/
def stubState (s₀ name : Str) (acc : Vault × MergeStats × List Str) : Prop :=
  (vaultGet acc.1 s₀ = none ∧ name ∉ acc.2.2) ∨ vaultGet acc.1 s₀ = some (stubNote name)

theorem endpointStep_stubState (today : Str) (acc : Vault × MergeStats × List Str)
    (n' s₀ name : Str) (hs : s₀ = sanitize name)
    (huni : sanitize n' = s₀ → n' = name)
    (hJ : stubState s₀ name acc) : stubState s₀ name (endpointStep today acc n') := by
  rcases hJ with ⟨h1, h2⟩ | hstub
  · obtain ⟨v, st, names⟩ := acc
    rw [endpointStep_eq]
    split
    · split <;> rename_i hno
      · by_cases hss : sanitize n' = s₀
        · have hn'name : n' = name := huni hss
          subst hn'name
          right
          show vaultGet (v ++ [(sanitize n', create_note (stemsOf v) today _ [] [])]) s₀ =
            some (stubNote n')
          rw [create_note_stub, ← hss]
          exact vaultGet_append_self _ (hss ▸ h1)
        · left
          dsimp only
          refine ⟨vaultGet_append_of_ne _ hss h1, ?_⟩
          intro hmem'
          rcases List.mem_append.mp hmem' with hn' | hn'
          · exact h2 hn'
          · have hname : name = n' := by simpa using hn'
            exact hss (hname ▸ hs.symm)
      · exact Or.inl ⟨h1, h2⟩
    · exact Or.inl ⟨h1, h2⟩
  · exact Or.inr (endpointStep_pres_some today acc n' s₀ _ hstub)

theorem endpointStep_stub_self (today : Str) (acc : Vault × MergeStats × List Str)
    (name s₀ : Str) (hs : s₀ = sanitize name)
    (hJ : stubState s₀ name acc) :
    vaultGet (endpointStep today acc name).1 s₀ = some (stubNote name) := by
  rcases hJ with ⟨h1, h2⟩ | hstub
  · obtain ⟨v, st, names⟩ := acc
    rw [endpointStep_eq]
    rw [if_pos (by simpa using h2)]
    rw [if_pos (by simp [← hs, h1])]
    show vaultGet (v ++ [(sanitize name, create_note (stemsOf v) today _ [] [])]) s₀ =
      some (stubNote name)
    rw [create_note_stub, hs]
    exact vaultGet_append_self _ (hs ▸ h1)
  · exact endpointStep_pres_some today acc name s₀ _ hstub

theorem process_extraction_fst (today : Str) (v : Vault) (ex : ExtractionResult) :
    (process_extraction today v ex).1 =
      (processRelationStubs today ex (processKnowledge today ex
        ((processEntities today ex v {}).1, (processEntities today ex v {}).2,
         ex.entities.map (·.name)))).1 := rfl

/-- C1 (amended) — after `process_extraction`, every relation endpoint's
file stem carries a note; and an endpoint whose file was absent
beforehand, whose stem collides with no extracted entity's or knowledge
entry's stem and is carried by no differently-named endpoint, ends up
with exactly the `concept` stub note with empty facts.  (Episode
participants are not materialized; see the counterexample.) -/
theorem relation_endpoints_materialized
    (today : Str) (v : Vault) (ex : ExtractionResult)
    (rel : ExtractedRelation) (hrel : rel ∈ ex.relations)
    (name : Str) (hname : name = rel.from_entity ∨ name = rel.to_entity) :
    (vaultGet (process_extraction today v ex).1 (sanitize name)).isSome ∧
    (vaultGet v (sanitize name) = none →
     (∀ e ∈ ex.entities, sanitize e.name ≠ sanitize name) →
     (∀ k ∈ ex.knowledge, sanitize k.entity ≠ sanitize name) →
     (∀ r ∈ ex.relations, ∀ m, (m = r.from_entity ∨ m = r.to_entity) →
        sanitize m = sanitize name → m = name) →
     vaultGet (process_extraction today v ex).1 (sanitize name) = some (stubNote name)) := by
  have hph1 := foldl_inv_establish_mem (fun _ => True)
    (fun acc e => (vaultGet acc.1 (sanitize e.name)).isSome = true)
    (entityStep today ex) ex.entities (fun _ _ _ _ => trivial)
    (fun s e _ _ => entityStep_self today ex s e)
    (fun s e b _ hb => entityStep_pres today ex s e (sanitize b.name) hb)
    (v, {}) trivial
  have hInv1 : namesPresent ((processEntities today ex v {}).1,
      (processEntities today ex v {}).2, ex.entities.map (·.name)) := by
    intro n hn
    obtain ⟨e, he, hen⟩ := List.mem_map.mp hn
    subst hen
    exact hph1.2 e he
  have hInv2 : namesPresent (processKnowledge today ex
      ((processEntities today ex v {}).1, (processEntities today ex v {}).2,
       ex.entities.map (·.name))) :=
    foldl_pres_mem namesPresent (knowledgeStep today) ex.knowledge
      (fun s k _ hs => knowledgeStep_inv today s k hs) _ hInv1
  constructor
  · have hph3 := foldl_inv_establish_mem namesPresent
      (fun acc r => (vaultGet acc.1 (sanitize r.from_entity)).isSome = true ∧
        (vaultGet acc.1 (sanitize r.to_entity)).isSome = true)
      (fun acc r => [r.from_entity, r.to_entity].foldl (endpointStep today) acc)
      ex.relations
      (fun s r _ hs => by
        show namesPresent (endpointStep today (endpointStep today s r.from_entity) r.to_entity)
        exact endpointStep_inv today _ _ (endpointStep_inv today _ _ hs))
      (fun s r _ hs => by
        show (vaultGet (endpointStep today (endpointStep today s r.from_entity) r.to_entity).1
            (sanitize r.from_entity)).isSome = true ∧
          (vaultGet (endpointStep today (endpointStep today s r.from_entity) r.to_entity).1
            (sanitize r.to_entity)).isSome = true
        refine ⟨?_, ?_⟩
        · exact endpointStep_pres today _ _ _ (endpointStep_self today s r.from_entity hs)
        · exact endpointStep_self today _ r.to_entity (endpointStep_inv today _ _ hs))
      (fun s r b _ hb => by
        show (vaultGet (endpointStep today (endpointStep today s r.from_entity) r.to_entity).1
            (sanitize b.from_entity)).isSome = true ∧
          (vaultGet (endpointStep today (endpointStep today s r.from_entity) r.to_entity).1
            (sanitize b.to_entity)).isSome = true
        exact ⟨endpointStep_pres today _ _ _ (endpointStep_pres today _ _ _ hb.1),
         endpointStep_pres today _ _ _ (endpointStep_pres today _ _ _ hb.2)⟩)
      _ hInv2
    rw [process_extraction_fst]
    rcases hname with h | h
    · rw [h]
      exact ((hph3.2 rel hrel).1 :)
    · rw [h]
      exact ((hph3.2 rel hrel).2 :)
  · intro hfresh hent hknow huniq
    have h1none : vaultGet (processEntities today ex v {}).1 (sanitize name) = none :=
      foldl_pres_mem (fun acc => vaultGet acc.1 (sanitize name) = none)
        (entityStep today ex) ex.entities
        (fun s e he hs => entityStep_avoid today ex s e (sanitize name) (hent e he) hs)
        (v, {}) hfresh
    have hnm1 : name ∉ ex.entities.map (·.name) := by
      intro hmem
      obtain ⟨e, he, hen⟩ := List.mem_map.mp hmem
      exact hent e he (by rw [hen])
    have h2 := foldl_pres_mem
      (fun acc => vaultGet acc.1 (sanitize name) = none ∧ name ∉ acc.2.2)
      (knowledgeStep today) ex.knowledge
      (fun s k hk hs => knowledgeStep_avoid today s k (sanitize name) name
        (hknow k hk) (fun he => hknow k hk (congrArg sanitize he)) hs.1 hs.2)
      ((processEntities today ex v {}).1, (processEntities today ex v {}).2,
       ex.entities.map (·.name)) ⟨h1none, hnm1⟩
    have hstub := foldl_inv_establish_mem (stubState (sanitize name) name)
      (fun acc r => (name = r.from_entity ∨ name = r.to_entity) →
        vaultGet acc.1 (sanitize name) = some (stubNote name))
      (fun acc r => [r.from_entity, r.to_entity].foldl (endpointStep today) acc)
      ex.relations
      (fun s r hr hs => by
        show stubState (sanitize name) name
          (endpointStep today (endpointStep today s r.from_entity) r.to_entity)
        exact endpointStep_stubState today _ r.to_entity (sanitize name) name rfl
          (huniq r hr r.to_entity (Or.inr rfl))
          (endpointStep_stubState today s r.from_entity (sanitize name) name rfl
            (huniq r hr r.from_entity (Or.inl rfl)) hs))
      (fun s r hr hs => by
        show (name = r.from_entity ∨ name = r.to_entity) →
          vaultGet (endpointStep today (endpointStep today s r.from_entity) r.to_entity).1
            (sanitize name) = some (stubNote name)
        intro hcase
        rcases hcase with hc | hc
        · refine endpointStep_pres_some today _ _ _ _ ?_
          rw [← hc]
          exact endpointStep_stub_self today s name _ rfl hs
        · rw [← hc]
          exact endpointStep_stub_self today _ name _ rfl
            (endpointStep_stubState today s r.from_entity (sanitize name) name rfl
              (huniq r hr r.from_entity (Or.inl rfl)) hs)
        )
      (fun s r b _ hb => by
        show (name = b.from_entity ∨ name = b.to_entity) →
          vaultGet (endpointStep today (endpointStep today s r.from_entity) r.to_entity).1
            (sanitize name) = some (stubNote name)
        intro hcase
        exact endpointStep_pres_some today _ _ _ _
          (endpointStep_pres_some today _ _ _ _ (hb hcase)))
      _ (Or.inl h2)
    rw [process_extraction_fst]
    exact hstub.2 rel hrel hname

/-- C1 (counterexample) — an extraction consisting of one episode with
participant `X` leaves the vault untouched: no note is created for an
episode participant, so a participant of the merge need not resolve to an
existing entity note. -/
theorem episode_participant_not_materialized :
    (process_extraction ("2024-06-01".data) []
        { episodes := [{ summary := "met X".data, participants := ["X".data] }] }).1 = [] ∧
      vaultGet (process_extraction ("2024-06-01".data) []
        { episodes := [{ summary := "met X".data, participants := ["X".data] }] }).1
        (sanitize ("X".data)) = none :=
  ⟨rfl, rfl⟩

/-- The one-relation extraction used to witness the amended C1. -/
def stubWitnessRel : ExtractedRelation :=
  { from_entity := "A".data, to_entity := "B".data, relation_type := "uses".data }

/-- C1 (witness) — the amended theorem applied to a one-relation
extraction: endpoint `B` receives a concept stub note. -/
theorem relation_endpoints_materialized_witness :
    vaultGet (process_extraction ("2024-06-01".data) []
        { relations := [stubWitnessRel] }).1 (sanitize ("B".data)) =
      some (stubNote ("B".data)) :=
  (relation_endpoints_materialized ("2024-06-01".data) [] { relations := [stubWitnessRel] }
      stubWitnessRel (List.mem_singleton.mpr rfl) ("B".data) (Or.inr rfl)).2 rfl
    (by intro e he; simp at he)
    (by intro k hk; simp at hk)
    (by
      intro r hr m hm hsan
      rw [List.mem_singleton] at hr
      subst hr
      rcases hm with hm | hm
      · subst hm
        exact absurd hsan (by decide)
      · exact hm)

/-- The number of `- ` bullet lines in a note body (the note in question
holds only fact bullets). -/
def factBulletCount (body : Str) : Nat :=
  ((splitOnChar '\n' body).filter fun l => pyStartsWith (pyStrip l) ['-', ' ']).length

/-- The S1/S2-style extraction whose second run duplicates a fact: Bob's
fact starts with the entity name `Alice`, so `_add_wikilinks` turns the
stored bullet into `- [[Alice]] is friend`, which
`_extract_existing_facts` then skips (leading `[` within the first three
characters), defeating `_fact_exists`. -/
def dupRunExtraction : ExtractionResult :=
  { entities := [
      { name := "Alice".data, entity_type := "person".data, facts := ["is nice".data] },
      { name := "Bob".data, entity_type := "person".data, facts := ["Alice is friend".data] }] }

/-- C2 — running `process_extraction` twice with the same extraction is
not idempotent on facts: Bob's note holds one fact bullet after the first
run and two (identical, overlap 1 > 0.7) after the second. -/
theorem second_run_duplicates_fact :
    (vaultGet (process_extraction ("2024-01-01".data) [] dupRunExtraction).1
        ("Bob".data)).map (fun n => factBulletCount n.body) = some 1 ∧
    (vaultGet (process_extraction ("2024-01-01".data)
        (process_extraction ("2024-01-01".data) [] dupRunExtraction).1 dupRunExtraction).1
        ("Bob".data)).map (fun n => factBulletCount n.body) = some 2 ∧
    (vaultGet (process_extraction ("2024-01-01".data)
        (process_extraction ("2024-01-01".data) [] dupRunExtraction).1 dupRunExtraction).1
        ("Bob".data)).map (fun n => n.body) =
      some ("# Bob\n\n## Facts\n\n- [[Alice]] is friend\n- [[Alice]] is friend\n".data) :=
  ⟨rfl, rfl, rfl⟩

/-- C6 — when the decoder finds no JSON in the cleaned response nor in the
outermost `{…}` substring, `_parse_response` returns (without raising) the
result with all five lists empty and the raw response retained. -/
theorem unparseable_response_yields_empty_result (jsonLoads : Str → Option Json) (raw : Str)
    (h1 : jsonLoads (stripFence (pyStrip raw)) = none)
    (h2 : ∀ s e, pyFind raw ['{'] = some s → pyRfind raw ['}'] = some e →
      jsonLoads ((raw.take (e + 1)).drop s) = none) :
    parse_response jsonLoads raw =
      some { entities := [], relations := [], knowledge := [], episodes := [],
             procedures := [], raw_response := raw } := by
  unfold parse_response
  dsimp only
  rw [h1]
  cases hf : pyFind raw ['{'] with
  | none => rfl
  | some s =>
    cases hr : pyRfind raw ['}'] with
    | none => rfl
    | some e =>
      dsimp only
      split
      · rw [h2 s e hf hr]
      · rfl

/-- C6 (witness) — the theorem at a decoder that never parses and a
concrete garbage response. -/
theorem unparseable_response_yields_empty_result_witness :
    parse_response (fun _ => none) ("no json here".data) =
      some { entities := [], relations := [], knowledge := [], episodes := [],
             procedures := [], raw_response := ("no json here".data) } :=
  unparseable_response_yields_empty_result (fun _ => none) ("no json here".data) rfl
    (fun _ _ _ _ => rfl)

/-- C8 (amended) — `_write_with_knowledge` skips exactly the entries whose
title is already a knowledge title of the body: the write depends only on
the fresh-titled entries. -/
theorem write_with_knowledge_skips_existing_titles (stems : List Str) (today fmType body : Str)
    (knowledge : List ExtractedKnowledge) :
    write_with_knowledge stems today fmType body knowledge =
      write_with_knowledge stems today fmType body
        (knowledge.filter fun k => k.title ∉ findTitles body) := by
  unfold write_with_knowledge
  dsimp only
  rw [List.filter_filter]
  simp only [Bool.and_self]

/-- C8 (counterexample) — two entries of one batch sharing the fresh title
`T` are both written, so the resulting note holds two knowledge entries
with the same title. -/
theorem same_title_batch_written_twice :
    (findTitles (write_with_knowledge ["E".data] ("2024-01-01".data) ("concept".data)
        ("# E\n".data)
        [{ entity := "E".data, knowledge_type := "insight".data, title := "T".data,
           content := "c1".data },
         { entity := "E".data, knowledge_type := "insight".data, title := "T".data,
           content := "c2".data }]).body).count ("T".data) = 2 := by
  decide

/-- The LLM response with an out-of-range episode importance. -/
def oversizedImportanceResponse : Json :=
  Json.obj [("episodes".data, Json.arr
    [Json.obj [("summary".data, Json.str ("debug session".data)),
               ("importance".data, Json.num 5)]])]

/-- C9 — episode importance is **not** clamped: a response with
`importance: 5` is stored with importance 5, whereas clamping to `[0,1]`
would store 1. -/
theorem importance_not_clamped :
    (parse_response (fun _ => some oversizedImportanceResponse) ("resp".data)).map
        (fun r => r.episodes.map (·.importance)) = some [(5 : Rat)] ∧
      max 0 (min 1 (5 : Rat)) = 1 := by
  constructor
  · rfl
  · norm_num

theorem lastUserScan_eq_find (l : List Msg) :
    lastUserScan l = ((l.find? fun m => m.role = "user".data).map (·.content)).getD [] := by
  induction l with
  | nil => rfl
  | cons m t ih =>
    unfold lastUserScan
    rw [List.find?_cons]
    by_cases h : m.role = "user".data
    · simp [h]
    · simp only [h, if_neg h, decide_eq_true_eq]
      rw [ih]
      simp [h]

theorem find?_eq_head?_filter {α : Type} (p : α → Bool) (l : List α) :
    l.find? p = (l.filter p).head? := by
  induction l with
  | nil => rfl
  | cons a t ih =>
    rw [List.find?_cons, List.filter_cons]
    cases h : p a
    · simp only [Bool.false_eq_true, if_false]
      exact ih
    · simp

/-- Modelled from the spec: "the content of the last user message, or the
empty string if no user message exists" — via filter and last. -/
def lastUserSpec (messages : List Msg) : Str :=
  (((messages.filter fun m => m.role = "user".data).getLast?).map (·.content)).getD []

/-- C10 — the default `LLMClient.chat` completes exactly on the content of
the most recent `user` message (empty when none exists); every other
message is ignored. -/
theorem chat_uses_last_user_message (complete : Str → Str → Str) (messages : List Msg)
    (system : Str) :
    llmChat complete messages system = complete (lastUserSpec messages) system := by
  unfold llmChat lastUserSpec
  congr 2
  rw [lastUserScan_eq_find, find?_eq_head?_filter, List.filter_reverse,
    ← List.getLast?_eq_head?_reverse]

/-! ## Hybrid-retrieval invariants (C4) -/

/-- Invariant of the graph-expansion state: the context IDs are distinct,
everything recorded is in `seen`, and no context entry carries the ID of
an expanded direct match. -/
def expandInv (s : ExpandState) : Prop :=
  (s.ctx.map fun n => n.entity.id).Nodup ∧
  (∀ n ∈ s.ctx, n.entity.id ∈ s.seen) ∧
  (∀ i ∈ s.expanded, i ∈ s.seen) ∧
  (∀ i ∈ s.expanded, ∀ n ∈ s.ctx, n.entity.id ≠ i)

theorem neighborStep_inv (s : ExpandState) (n : Neighbor) (h : expandInv s) :
    expandInv (neighborStep s n) := by
  unfold neighborStep
  split <;> rename_i hin
  · exact h
  · obtain ⟨h1, h2, h3, h4⟩ := h
    refine ⟨?_, ?_, ?_, ?_⟩
    · rw [List.map_append, List.nodup_append]
      refine ⟨h1, by simp, ?_⟩
      intro x hx
      simp only [List.map_cons, List.map_nil, List.mem_singleton]
      intro he
      obtain ⟨y, hy, hyx⟩ := List.mem_map.mp hx
      exact hin (he ▸ hyx ▸ h2 y hy)
    · intro x hx
      rcases List.mem_append.mp hx with hx' | hx'
      · exact List.mem_append_left _ (h2 x hx')
      · have hxn : x = n := by simpa using hx'
        subst hxn
        exact List.mem_append_right _ (by simp)
    · intro i hi
      exact List.mem_append_left _ (h3 i hi)
    · intro i hi x hx
      rcases List.mem_append.mp hx with hx' | hx'
      · exact h4 i hi x hx'
      · have hxn : x = n := by simpa using hx'
        subst hxn
        exact fun he => hin (he ▸ h3 i hi)

theorem neighborStep_expanded (s : ExpandState) (n : Neighbor) :
    (neighborStep s n).expanded = s.expanded := by
  unfold neighborStep
  split <;> rfl

theorem expandMatch_inv (getEntity : Str → Option GEntity)
    (getNeighbors : Str → Nat → List Neighbor) (graphDepth : Nat)
    (s : ExpandState) (m : SearchResult) (h : expandInv s) :
    expandInv (expandMatch getEntity getNeighbors graphDepth s m) := by
  unfold expandMatch
  split <;> rename_i hin
  · exact h
  · obtain ⟨h1, h2, h3, h4⟩ := h
    have hs' : expandInv { seen := s.seen ++ [m.entity_id], ctx := s.ctx, expanded := s.expanded ++ [m.entity_id] } := by
      refine ⟨h1, ?_, ?_, ?_⟩
      · intro x hx
        exact List.mem_append_left _ (h2 x hx)
      · intro i hi
        rcases List.mem_append.mp hi with hi' | hi'
        · exact List.mem_append_left _ (h3 i hi')
        · exact List.mem_append_right _ hi'
      · intro i hi x hx
        rcases List.mem_append.mp hi with hi' | hi'
        · exact h4 i hi' x hx
        · have him : i = m.entity_id := by simpa using hi'
          subst him
          exact fun he => hin (he ▸ h2 x hx)
    dsimp only
    cases hge : getEntity m.entity_id with
    | none => exact hs'
    | some _ =>
      exact foldl_pres expandInv neighborStep (fun st x hx => neighborStep_inv st x hx) _ _ hs'

theorem expandMatch_expanded_mono (getEntity : Str → Option GEntity)
    (getNeighbors : Str → Nat → List Neighbor) (graphDepth : Nat)
    (s : ExpandState) (m : SearchResult) (i : Str) (h : i ∈ s.expanded) :
    i ∈ (expandMatch getEntity getNeighbors graphDepth s m).expanded := by
  unfold expandMatch
  split
  · exact h
  · have hmem : i ∈ (s.expanded ++ [m.entity_id]) := List.mem_append_left _ h
    dsimp only
    cases hge : getEntity m.entity_id with
    | none => exact hmem
    | some _ =>
      exact foldl_pres (fun st => i ∈ st.expanded) neighborStep
        (fun st x hx => by
          show i ∈ (neighborStep st x).expanded
          rw [neighborStep_expanded]
          exact hx) _
        { seen := s.seen ++ [m.entity_id], ctx := s.ctx, expanded := s.expanded ++ [m.entity_id] }
        hmem

theorem expandMatch_self_expanded (getEntity : Str → Option GEntity)
    (getNeighbors : Str → Nat → List Neighbor) (graphDepth : Nat)
    (s : ExpandState) (m : SearchResult) (h : m.entity_id ∉ s.seen) :
    m.entity_id ∈ (expandMatch getEntity getNeighbors graphDepth s m).expanded := by
  unfold expandMatch
  rw [if_neg h]
  have hmem : m.entity_id ∈ (s.expanded ++ [m.entity_id]) :=
    List.mem_append_right _ (by simp)
  dsimp only
  cases hge : getEntity m.entity_id with
  | none => exact hmem
  | some _ =>
    exact foldl_pres (fun st => m.entity_id ∈ st.expanded) neighborStep
      (fun st x hx => by
        show m.entity_id ∈ (neighborStep st x).expanded
        rw [neighborStep_expanded]
        exact hx) _
      { seen := s.seen ++ [m.entity_id], ctx := s.ctx, expanded := s.expanded ++ [m.entity_id] }
      hmem

theorem graphExpansion_inv (getEntity : Str → Option GEntity)
    (getNeighbors : Str → Nat → List Neighbor) (graphDepth : Nat)
    (ms : List SearchResult) :
    expandInv (graphExpansion getEntity getNeighbors graphDepth ms) := by
  refine foldl_pres expandInv (expandMatch getEntity getNeighbors graphDepth)
    (fun st x hx => expandMatch_inv getEntity getNeighbors graphDepth st x hx) ms {} ?_
  exact ⟨List.nodup_nil, by simp, by simp, by simp⟩

theorem graphExpansion_head_expanded (getEntity : Str → Option GEntity)
    (getNeighbors : Str → Nat → List Neighbor) (graphDepth : Nat)
    (m : SearchResult) (rest : List SearchResult) :
    m.entity_id ∈ (graphExpansion getEntity getNeighbors graphDepth (m :: rest)).expanded := by
  show m.entity_id ∈ (rest.foldl (expandMatch getEntity getNeighbors graphDepth)
    (expandMatch getEntity getNeighbors graphDepth {} m)).expanded
  refine foldl_pres (fun st => m.entity_id ∈ st.expanded) _
    (fun st x hx => expandMatch_expanded_mono getEntity getNeighbors graphDepth st x _ hx)
    rest _ ?_
  exact expandMatch_self_expanded getEntity getNeighbors graphDepth {} m (by simp)

/-- C4 (amended) — on every `HybridRetrieval.query` call: no entity ID
appears twice within `graph_context`; every `graph_context` entity's ID
differs from the ID of every direct match whose graph expansion was
actually entered (i.e. that passed the `seen_entities` check — the first
direct match always does); a direct match skipped as already seen may
share its ID with an earlier `graph_context` entry. -/
theorem graph_context_nodup_and_expanded_distinct
    (vsearch : Str → Nat → Rat → List SearchResult)
    (getEntity : Str → Option GEntity) (getNeighbors : Str → Nat → List Neighbor)
    (text : Str) (topK graphDepth : Nat) (minScore : Rat) :
    (((hybridQuery vsearch getEntity getNeighbors text topK graphDepth minScore).graph_context.map
        fun n => n.entity.id).Nodup) ∧
    (∀ i ∈ (graphExpansion getEntity getNeighbors graphDepth
        (hybridQuery vsearch getEntity getNeighbors text topK graphDepth
          minScore).direct_matches).expanded,
      ∀ n ∈ (hybridQuery vsearch getEntity getNeighbors text topK graphDepth
          minScore).graph_context, n.entity.id ≠ i) ∧
    (∀ m ∈ (hybridQuery vsearch getEntity getNeighbors text topK graphDepth
        minScore).direct_matches.head?,
      m.entity_id ∈ (graphExpansion getEntity getNeighbors graphDepth
        (hybridQuery vsearch getEntity getNeighbors text topK graphDepth
          minScore).direct_matches).expanded) := by
  have hinv := graphExpansion_inv getEntity getNeighbors graphDepth (vsearch text topK minScore)
  refine ⟨hinv.1, fun i hi n hn => hinv.2.2.2 i hi n hn, ?_⟩
  intro m hm
  show m.entity_id ∈ (graphExpansion getEntity getNeighbors graphDepth
    (vsearch text topK minScore)).expanded
  cases hl : vsearch text topK minScore with
  | nil =>
    have : (hybridQuery vsearch getEntity getNeighbors text topK graphDepth
        minScore).direct_matches = [] := hl
    rw [this] at hm
    simp at hm
  | cons m0 rest =>
    have hdm : (hybridQuery vsearch getEntity getNeighbors text topK graphDepth
        minScore).direct_matches = m0 :: rest := hl
    rw [hdm] at hm
    have hm0 : m0 = m := by simpa using hm
    subst hm0
    exact graphExpansion_head_expanded getEntity getNeighbors graphDepth m0 rest

/-- Direct match on entity `1` (C4 scenario). -/
def cexMatch1 : SearchResult :=
  { chunk_id := "c1".data, entity_id := "1".data, entity_name := "A".data,
    sectionName := "Facts".data, content := "x".data, score := 1 }

/-- Direct match on entity `2` (C4 scenario). -/
def cexMatch2 : SearchResult :=
  { chunk_id := "c2".data, entity_id := "2".data, entity_name := "B".data,
    sectionName := "Facts".data, content := "y".data, score := 1 }

/-- Vector search returning the two matches (C4 scenario). -/
def cexVsearch : Str → Nat → Rat → List SearchResult := fun _ _ _ => [cexMatch1, cexMatch2]

/-- Graph lookup resolving every ID (C4 scenario). -/
def cexGetEntity : Str → Option GEntity :=
  fun i => some { id := i, name := i, entity_type := "person".data }

/-- Entity `1` has entity `2` as neighbor (C4 scenario). -/
def cexGetNeighbors : Str → Nat → List Neighbor := fun i _ =>
  if i = "1".data then
    [{ entity := { id := "2".data, name := "B".data, entity_type := "person".data },
       relation_type := "uses".data }]
  else []

/-- C4 (counterexample) — entity `2` enters `graph_context` as a neighbor
of the first match and is also the second direct match's entity ID, so a
`graph_context` ID is *not* distinct from every direct match's ID. -/
theorem graph_context_contains_direct_match_id :
    ((hybridQuery cexVsearch cexGetEntity cexGetNeighbors ("q".data) 5 1
        ((15 : Rat) / 100)).graph_context.map fun n => n.entity.id) = [("2".data)] ∧
      ("2".data) ∈ ((hybridQuery cexVsearch cexGetEntity cexGetNeighbors ("q".data) 5 1
        ((15 : Rat) / 100)).direct_matches.map fun m => m.entity_id) := by
  refine ⟨rfl, ?_⟩
  decide

/-- C4 (witness) — the amended theorem at the concrete scenario; with
`"1"` expanded (it is the first match), no `graph_context` ID equals
`"1"`. -/
theorem graph_context_nodup_witness :
    (((hybridQuery cexVsearch cexGetEntity cexGetNeighbors ("q".data) 5 1
        ((15 : Rat) / 100)).graph_context.map fun n => n.entity.id).Nodup) ∧
    (∀ n ∈ (hybridQuery cexVsearch cexGetEntity cexGetNeighbors ("q".data) 5 1
        ((15 : Rat) / 100)).graph_context, n.entity.id ≠ ("1".data)) := by
  obtain ⟨h1, h2, h3⟩ := graph_context_nodup_and_expanded_distinct cexVsearch cexGetEntity
    cexGetNeighbors ("q".data) 5 1 ((15 : Rat) / 100)
  refine ⟨h1, fun n hn => h2 ("1".data) ?_ n hn⟩
  have hhead := h3 cexMatch1 (by decide)
  exact hhead

/-! ## Memory delete (C5) -/

/-- C5 (amended) — after a successful `delete(N)`, provided no other note
stem matches `N` case-insensitively, the note file is gone, `get(N)`
reports the entity absent, and neither the rebuilt graph nor the vector
view (both keyed by the remaining note stems) reports `N`. -/
theorem delete_removes_note_and_views_forget (v : Vault) (name : Str)
    (hdel : (memory_delete v name).2 = true)
    (huniq : ∀ s ∈ stemsOf v, pyLower s = pyLower name → s = sanitize name) :
    memory_get (memory_delete v name).1 name = none ∧
    vaultGet (memory_delete v name).1 (sanitize name) = none ∧
    (∀ s ∈ stemsOf (memory_delete v name).1, pyLower s ≠ pyLower name) := by
  by_cases hp : (vaultGet v (sanitize name)).isSome
  · have h1 : (memory_delete v name).1 = v.filter fun p => p.1 ≠ sanitize name := by
      unfold memory_delete
      rw [if_pos hp]
    have hstems : ∀ s ∈ stemsOf (v.filter fun p => p.1 ≠ sanitize name),
        s ∈ stemsOf v ∧ s ≠ sanitize name := by
      intro s hs
      obtain ⟨p, hpmem, hps⟩ := List.mem_map.mp hs
      have hf := List.mem_filter.mp hpmem
      refine ⟨List.mem_map.mpr ⟨p, hf.1, hps⟩, ?_⟩
      have h2 := hf.2
      simp only [decide_eq_true_eq] at h2
      exact hps ▸ h2
    rw [h1]
    refine ⟨?_, ?_, ?_⟩
    · unfold memory_get find_entity
      rw [List.find?_eq_none]
      intro s hs
      simp only [decide_eq_true_eq]
      intro hlow
      obtain ⟨hmem, hne⟩ := hstems s hs
      exact hne (huniq s hmem hlow)
    · have hnone : ((v.filter fun p => p.1 ≠ sanitize name).find?
          fun p => p.1 = sanitize name) = none := by
        rw [List.find?_eq_none]
        intro p hpmem
        have hf := List.mem_filter.mp hpmem
        simpa using hf.2
      unfold vaultGet
      rw [hnone]
      rfl
    · intro s hs hlow
      obtain ⟨hmem, hne⟩ := hstems s hs
      exact hne (huniq s hmem hlow)
  · exfalso
    unfold memory_delete at hdel
    rw [if_neg hp] at hdel
    simp at hdel

/-- The note used by the C5 scenarios. -/
def aliNote : Note := { fmType := "person".data, body := "# Ali\n".data }

/-- C5 (witness) — the amended theorem on a one-note vault. -/
theorem delete_removes_note_witness :
    memory_get (memory_delete [(("Ali".data), aliNote)] ("Ali".data)).1 ("Ali".data) = none ∧
    vaultGet (memory_delete [(("Ali".data), aliNote)] ("Ali".data)).1
      (sanitize ("Ali".data)) = none ∧
    (∀ s ∈ stemsOf (memory_delete [(("Ali".data), aliNote)] ("Ali".data)).1,
      pyLower s ≠ pyLower ("Ali".data)) :=
  delete_removes_note_and_views_forget [(("Ali".data), aliNote)] ("Ali".data) (by decide)
    (by decide)

/-- C5 (counterexample) — with case-variant notes `Ali.md` and `ali.md`,
`delete("Ali")` returns `True` and removes the file, yet the
case-insensitive `find_entity` behind `get("Ali")` still reports the
surviving entity `ali`, so `get` does not report the entity absent. -/
theorem case_variant_survives_delete :
    (memory_delete [(("Ali".data), aliNote), (("ali".data), aliNote)] ("Ali".data)).2 = true ∧
    memory_get (memory_delete [(("Ali".data), aliNote), (("ali".data), aliNote)]
      ("Ali".data)).1 ("Ali".data) = some ("ali".data) := by
  refine ⟨?_, ?_⟩ <;> decide

/-! ## Cloud embedder order restoration (C7) -/

/-- C7 — for any permutation the upstream applies to the indexed response
items, `embed_batch` returns the embeddings in input order (re-sorting by
the `index` field). -/
theorem embed_batch_restores_input_order (n : Nat) (f : Nat → List Rat)
    (items : List (Nat × List Rat))
    (hperm : items.Perm ((List.range n).map fun i => (i, f i))) :
    embed_batch_order items = (List.range n).map f := by
  have hsp : (items.mergeSort fun a b => a.1 ≤ b.1).Perm
      ((List.range n).map fun i => (i, f i)) :=
    (List.mergeSort_perm items _).trans hperm
  have hfst : (((List.range n).map fun i => (i, f i)).map Prod.fst) = List.range n := by
    have hc : (Prod.fst ∘ fun i : Nat => (i, f i)) = id := rfl
    rw [List.map_map, hc, List.map_id]
  have hnodup : ((((List.range n).map fun i => (i, f i)).map Prod.fst)).Nodup := by
    rw [hfst]
    exact List.nodup_range n
  have hnodup_s : (((items.mergeSort fun a b => a.1 ≤ b.1).map Prod.fst)).Nodup :=
    ((hsp.map Prod.fst).nodup_iff).mpr hnodup
  have hle : List.Pairwise (fun a b : Nat × List Rat => a.1 ≤ b.1)
      (items.mergeSort fun a b => a.1 ≤ b.1) := by
    have h := @List.sorted_mergeSort _ (fun a b : Nat × List Rat => decide (a.1 ≤ b.1))
      (by
        intro a b c hab hbc
        simp only [decide_eq_true_eq] at *
        omega)
      (by
        intro a b
        simp only [Bool.or_eq_true, decide_eq_true_eq]
        omega)
      items
    refine h.imp ?_
    intro a b hab
    simpa using hab
  have hne : List.Pairwise (fun a b : Nat × List Rat => a.1 ≠ b.1)
      (items.mergeSort fun a b => a.1 ≤ b.1) := by
    have := hnodup_s
    rw [List.Nodup, List.pairwise_map] at this
    exact this
  have hlt_s : List.Sorted (fun a b : Nat × List Rat => a.1 < b.1)
      (items.mergeSort fun a b => a.1 ≤ b.1) :=
    (hle.and hne).imp fun hab => lt_of_le_of_ne hab.1 hab.2
  have hlt_c : List.Sorted (fun a b : Nat × List Rat => a.1 < b.1)
      ((List.range n).map fun i => (i, f i)) := by
    rw [List.Sorted, List.pairwise_map]
    exact (List.pairwise_lt_range n).imp fun h => h
  haveI : IsAntisymm (Nat × List Rat) (fun a b => a.1 < b.1) :=
    ⟨fun a b h1 h2 => absurd (h1.trans h2) (lt_irrefl _)⟩
  have heq := List.eq_of_perm_of_sorted hsp hlt_s hlt_c
  unfold embed_batch_order
  rw [heq, List.map_map]
  simp

/-- C7 (witness) — a two-item response delivered in swapped order comes
back in input order. -/
theorem embed_batch_restores_input_order_witness :
    embed_batch_order [(1, [(1 : Rat)]), (0, [(0 : Rat)])] =
      (List.range 2).map (fun i => [(i : Rat)]) :=
  embed_batch_restores_input_order 2 (fun i => [(i : Rat)])
    [(1, [(1 : Rat)]), (0, [(0 : Rat)])] (by decide)

end Mengram
